import Mathlib

/-!
Verification of a propositional-logic parser, evaluator and truth-table
enumerator.  The definitions below are a shallow embedding of the program:
the PEG grammar (rules w, ident, operator, term, not, unary, binary, expr)
is embedded as a fuel-indexed recursive-descent parser over lists of
characters, the evaluator models the program's panics as Option failure,
and the truth-table builder models hash maps as association lists in
insertion order.
-/

namespace LogicParser

/-- Whitespace characters accepted by the grammar rule w. -/
def isWs (c : Char) : Bool := c = '\n' || c = '\r' || c = '\t' || c = ' '

/-- ASCII letters, the characters an ident consists of. -/
def isLetter (c : Char) : Bool := ('a' ≤ c && c ≤ 'z') || ('A' ≤ c && c ≤ 'Z')

/-- The rule w: drop leading whitespace. -/
def skipWs (s : List Char) : List Char := s.dropWhile isWs

/-- The abstract syntax tree of formulas. -/
inductive Expr where
  | True : Expr
  | False : Expr
  | Term : String → Expr
  | Not : Expr → Expr
  | And : Expr → Expr → Expr
  | Or : Expr → Expr → Expr
  | Imply : Expr → Expr → Expr
  | Equiv : Expr → Expr → Expr
deriving DecidableEq, Repr

/-- Match a literal character sequence at the front of the input, returning
the rest of the input on success. -/
def matchLit : List Char → List Char → Option (List Char)
  | [], s => some s
  | _ :: _, [] => none
  | p :: ps, c :: cs => if c = p then matchLit ps cs else none

/-- The rule operator: one of the four literal spellings, tried in the
source order & then | then => then <=>. -/
def parseOp (s : List Char) : Option (String × List Char) :=
  match matchLit ['&'] s with
  | some r => some ("&", r)
  | none =>
  match matchLit ['|'] s with
  | some r => some ("|", r)
  | none =>
  match matchLit ['=', '>'] s with
  | some r => some ("=>", r)
  | none =>
  match matchLit ['<', '=', '>'] s with
  | some r => some ("<=>", r)
  | none => none

/-- The rule term: a maximal nonempty run of letters; the identifiers true
and false become the boolean constants, anything else becomes a Term. -/
def parseTerm (s : List Char) : Option (Expr × List Char) :=
  let tok := s.takeWhile isLetter
  if tok = [] then none
  else
    let r := s.dropWhile isLetter
    let name := String.mk tok
    if name = "true" then some (.True, r)
    else if name = "false" then some (.False, r)
    else some (.Term name, r)

/-- The operator-to-constructor table used by the fold in the rule binary.
The final arm is unreachable in the program (parseOp produces only the four
spellings); the source marks it unreachable. -/
def mkOp (op : String) (l r : Expr) : Expr :=
  if op = "&" then .And l r
  else if op = "|" then .Or l r
  else if op = "=>" then .Imply l r
  else if op = "<=>" then .Equiv l r
  else .And l r

/-- The left fold of the rule binary over the collected (operator, operand)
pairs. -/
def foldOps (l : Expr) (ps : List (String × Expr)) : Expr :=
  ps.foldl (fun acc p => mkOp p.1 acc p.2) l

/-- Parser outcome: success, a grammar failure, or fuel exhaustion. -/
inductive PRes (α : Type) where
  | ok : α → PRes α
  | fail : PRes α
  | out : PRes α
deriving DecidableEq, Repr

mutual

/-- The rule expr = w (binary | unary) w. -/
def parseExprF : Nat → List Char → PRes (Expr × List Char)
  | 0, _ => .out
  | fuel+1, s =>
    match parseBinaryF fuel (skipWs s) with
    | .ok (e, r) => .ok (e, skipWs r)
    | .out => .out
    | .fail =>
      match parseUnaryF fuel (skipWs s) with
      | .ok (e, r) => .ok (e, skipWs r)
      | .out => .out
      | .fail => .fail

/-- The rule binary: left=unary w rest=(w operator w binary)* with a left
fold of the collected pairs. -/
def parseBinaryF : Nat → List Char → PRes (Expr × List Char)
  | 0, _ => .out
  | fuel+1, s =>
    match parseUnaryF fuel s with
    | .out => .out
    | .fail => .fail
    | .ok (l, s1) =>
      match parseRestF fuel (skipWs s1) with
      | .out => .out
      | .fail => .fail
      | .ok (ps, s2) => .ok (foldOps l ps, s2)

/-- The repetition (w operator w binary)* of the rule binary. -/
def parseRestF : Nat → List Char → PRes (List (String × Expr) × List Char)
  | 0, _ => .out
  | fuel+1, s =>
    match parseRestElemF fuel s with
    | .out => .out
    | .fail => .ok ([], s)
    | .ok (p, s1) =>
      match parseRestF fuel s1 with
      | .out => .out
      | .fail => .fail
      | .ok (ps, s2) => .ok (p :: ps, s2)

/-- One element w operator w binary of the repetition. -/
def parseRestElemF : Nat → List Char → PRes ((String × Expr) × List Char)
  | 0, _ => .out
  | fuel+1, s =>
    match parseOp (skipWs s) with
    | none => .fail
    | some (op, s1) =>
      match parseBinaryF fuel (skipWs s1) with
      | .out => .out
      | .fail => .fail
      | .ok (e, s2) => .ok ((op, e), s2)

/-- The rule unary = w (term | not | "(" expr ")") w, an ordered choice. -/
def parseUnaryF : Nat → List Char → PRes (Expr × List Char)
  | 0, _ => .out
  | fuel+1, s =>
    match parseTerm (skipWs s) with
    | some (e, r) => .ok (e, skipWs r)
    | none =>
      match parseNotF fuel (skipWs s) with
      | .out => .out
      | .ok (e, r) => .ok (e, skipWs r)
      | .fail =>
        match skipWs s with
        | [] => .fail
        | c :: s1 =>
          if c = '(' then
            match parseExprF fuel s1 with
            | .out => .out
            | .fail => .fail
            | .ok (e, r) =>
              match r with
              | [] => .fail
              | c2 :: r2 => if c2 = ')' then .ok (e, skipWs r2) else .fail
          else .fail

/-- The rule not: "!" w e=expr, negating the entire following expression. -/
def parseNotF : Nat → List Char → PRes (Expr × List Char)
  | 0, _ => .out
  | fuel+1, s =>
    match s with
    | [] => .fail
    | c :: s1 =>
      if c = '!' then
        match parseExprF fuel (skipWs s1) with
        | .ok (e, r) => .ok (.Not e, r)
        | .fail => .fail
        | .out => .out
      else .fail

end

/-- Fuel that always suffices for an input of the given length. -/
def exprFuel (s : List Char) : Nat := 8 * s.length + 8

/-- Top-level parse of a single expression: the whole input must be
consumed, as the library's entry point demands. -/
def parseExprTop (s : List Char) : Option Expr :=
  match parseExprF (exprFuel s) s with
  | .ok (e, []) => some e
  | _ => none

/-- parse_expression: parse one formula from a string, requiring the whole
input to be consumed. -/
def parse_expression (s : String) : Option Expr := parseExprTop s.data

/-- A variable assignment, modelling the HashMap from names to booleans as
an association list with unique keys. -/
abbrev Assign := List (String × Bool)

/-- HashMap lookup on the association-list model. -/
def lookupVar (k : String) : Assign → Option Bool
  | [] => none
  | (k', v) :: rest => if k' = k then some v else lookupVar k rest

/-- HashMap insert on the association-list model: replace the binding if
the key is present, otherwise add it at the end. -/
def insertVar : Assign → String → Bool → Assign
  | [], k, v => [(k, v)]
  | (k', v') :: rest, k, v =>
    if k' = k then (k, v) :: rest else (k', v') :: insertVar rest k v

/-- get_vars_: every variable name in the tree, in order, duplicates kept. -/
def get_vars_ : Expr → List String
  | .True => []
  | .False => []
  | .Term t => [t]
  | .Not e => get_vars_ e
  | .Or l r => get_vars_ l ++ get_vars_ r
  | .And l r => get_vars_ l ++ get_vars_ r
  | .Imply l r => get_vars_ l ++ get_vars_ r
  | .Equiv l r => get_vars_ l ++ get_vars_ r

/-- The membership pre-check made by interpret before evaluating: every
symbol of the expression must be bound in the assignment. -/
def check_vars (e : Expr) (vars : Assign) : Bool :=
  (get_vars_ e).all (fun s => (lookupVar s vars).isSome)

/-- interpret_: structural evaluation.  Each recursive call goes through
the checked entry point, as in the source; a failed lookup, which panics
in the program, is modelled as Option failure.  The boolean operators are
the non-short-circuiting ones of the source. -/
def interpret_ : Expr → Assign → Option Bool
  | .True, _ => some true
  | .False, _ => some false
  | .Term t, vars => lookupVar t vars
  | .Not e, vars =>
    (if check_vars e vars then interpret_ e vars else none).map (!·)
  | .Or l r, vars => do
    let a ← if check_vars l vars then interpret_ l vars else none
    let b ← if check_vars r vars then interpret_ r vars else none
    pure (a || b)
  | .And l r, vars => do
    let a ← if check_vars l vars then interpret_ l vars else none
    let b ← if check_vars r vars then interpret_ r vars else none
    pure (a && b)
  | .Imply l r, vars => do
    let a ← if check_vars l vars then interpret_ l vars else none
    let b ← if check_vars r vars then interpret_ r vars else none
    pure (!a || b)
  | .Equiv l r, vars => do
    let a ← if check_vars l vars then interpret_ l vars else none
    let b ← if check_vars r vars then interpret_ r vars else none
    pure (!(Bool.xor a b))

/-- interpret: check that every symbol of the expression is bound, then
evaluate; a missing symbol, which panics in the program, is none here. -/
def interpret (e : Expr) (vars : Assign) : Option Bool :=
  if check_vars e vars then interpret_ e vars else none

/-- One doubling step of make_table: each table is replaced by its false
extension followed by its true extension, in table order. -/
def table_step (tables : List Assign) (v : String) : List Assign :=
  tables.foldr (fun t acc => insertVar t v false :: insertVar t v true :: acc) []

/-- make_table: the truth-table enumerator.  The program unwraps the first
element of the variable iterator, so the empty set panics, modelled as
none; afterwards each further variable doubles the table. -/
def make_table : List String → Option (List Assign)
  | [] => none
  | v :: vs =>
    some (vs.foldl table_step [[(v, false)], [(v, true)]])

/-! One-step unfolding equations for the parser functions. -/

theorem parseExprF_succ (fuel : Nat) (s : List Char) :
    parseExprF (fuel+1) s =
      match parseBinaryF fuel (skipWs s) with
      | .ok (e, r) => .ok (e, skipWs r)
      | .out => .out
      | .fail =>
        match parseUnaryF fuel (skipWs s) with
        | .ok (e, r) => .ok (e, skipWs r)
        | .out => .out
        | .fail => .fail := rfl

theorem parseBinaryF_succ (fuel : Nat) (s : List Char) :
    parseBinaryF (fuel+1) s =
      match parseUnaryF fuel s with
      | .out => .out
      | .fail => .fail
      | .ok (l, s1) =>
        match parseRestF fuel (skipWs s1) with
        | .out => .out
        | .fail => .fail
        | .ok (ps, s2) => .ok (foldOps l ps, s2) := rfl

theorem parseRestF_succ (fuel : Nat) (s : List Char) :
    parseRestF (fuel+1) s =
      match parseRestElemF fuel s with
      | .out => .out
      | .fail => .ok ([], s)
      | .ok (p, s1) =>
        match parseRestF fuel s1 with
        | .out => .out
        | .fail => .fail
        | .ok (ps, s2) => .ok (p :: ps, s2) := rfl

theorem parseRestElemF_succ (fuel : Nat) (s : List Char) :
    parseRestElemF (fuel+1) s =
      match parseOp (skipWs s) with
      | none => .fail
      | some (op, s1) =>
        match parseBinaryF fuel (skipWs s1) with
        | .out => .out
        | .fail => .fail
        | .ok (e, s2) => .ok ((op, e), s2) := rfl

theorem parseUnaryF_succ (fuel : Nat) (s : List Char) :
    parseUnaryF (fuel+1) s =
      match parseTerm (skipWs s) with
      | some (e, r) => .ok (e, skipWs r)
      | none =>
        match parseNotF fuel (skipWs s) with
        | .out => .out
        | .ok (e, r) => .ok (e, skipWs r)
        | .fail =>
          match skipWs s with
          | [] => .fail
          | c :: s1 =>
            if c = '(' then
              match parseExprF fuel s1 with
              | .out => .out
              | .fail => .fail
              | .ok (e, r) =>
                match r with
                | [] => .fail
                | c2 :: r2 => if c2 = ')' then .ok (e, skipWs r2) else .fail
            else .fail := rfl

theorem parseNotF_succ (fuel : Nat) (s : List Char) :
    parseNotF (fuel+1) s =
      match s with
      | [] => .fail
      | c :: s1 =>
        if c = '!' then
          match parseExprF fuel (skipWs s1) with
          | .ok (e, r) => .ok (.Not e, r)
          | .fail => .fail
          | .out => .out
        else .fail := rfl

/-! Primitive facts about whitespace, literals, operators and idents. -/

theorem skipWs_nil : skipWs [] = [] := rfl

theorem skipWs_cons_of_not_ws (c : Char) (s : List Char) (h : isWs c = false) :
    skipWs (c :: s) = c :: s := by
  simp [skipWs, List.dropWhile_cons, h]

theorem skipWs_cons_of_ws (c : Char) (s : List Char) (h : isWs c = true) :
    skipWs (c :: s) = skipWs s := by
  simp [skipWs, List.dropWhile_cons, h]

theorem skipWs_idem (s : List Char) : skipWs (skipWs s) = skipWs s := by
  induction s with
  | nil => rfl
  | cons c s ih =>
    cases h : isWs c
    · rw [skipWs_cons_of_not_ws c s h, skipWs_cons_of_not_ws c s h]
    · rw [skipWs_cons_of_ws c s h, ih]

theorem skipWs_head_not_ws (s : List Char) (c : Char) (r : List Char)
    (h : skipWs s = c :: r) : isWs c = false := by
  induction s with
  | nil => simp [skipWs] at h
  | cons d s ih =>
    cases hd : isWs d
    · rw [skipWs_cons_of_not_ws d s hd] at h
      cases h
      exact hd
    · rw [skipWs_cons_of_ws d s hd] at h
      exact ih h

theorem skipWs_append_of_ne_nil (s u : List Char) (h : skipWs s ≠ []) :
    skipWs (s ++ u) = skipWs s ++ u := by
  induction s with
  | nil => simp [skipWs] at h
  | cons c s ih =>
    cases hc : isWs c
    · rw [List.cons_append, skipWs_cons_of_not_ws c (s ++ u) hc,
        skipWs_cons_of_not_ws c s hc]
      rfl
    · rw [skipWs_cons_of_ws c s hc] at h ⊢
      rw [List.cons_append, skipWs_cons_of_ws c (s ++ u) hc]
      exact ih h

theorem skipWs_append_of_nil (s u : List Char) (h : skipWs s = []) :
    skipWs (s ++ u) = skipWs u := by
  induction s with
  | nil => rfl
  | cons c s ih =>
    cases hc : isWs c
    · rw [skipWs_cons_of_not_ws c s hc] at h
      cases h
    · rw [skipWs_cons_of_ws c s hc] at h
      rw [List.cons_append, skipWs_cons_of_ws c (s ++ u) hc]
      exact ih h

theorem matchLit_self_append (p r : List Char) : matchLit p (p ++ r) = some r := by
  induction p with
  | nil => rfl
  | cons c p ih => simp [matchLit, ih]

theorem matchLit_eq_append (p s r : List Char) (h : matchLit p s = some r) :
    s = p ++ r := by
  induction p generalizing s with
  | nil => simpa [matchLit] using h
  | cons c p ih =>
    cases s with
    | nil => simp [matchLit] at h
    | cons d s =>
      by_cases hd : d = c
      · subst hd
        simp only [matchLit, if_pos rfl] at h
        simpa using ih s h
      · simp [matchLit, hd] at h

theorem matchLit_append_some (p s r u : List Char) (h : matchLit p s = some r) :
    matchLit p (s ++ u) = some (r ++ u) := by
  rw [matchLit_eq_append p s r h, List.append_assoc]
  exact matchLit_self_append p (r ++ u)

theorem parseOp_nil : parseOp [] = none := rfl

theorem parseOp_rparen (cs : List Char) : parseOp (')' :: cs) = none := rfl

theorem parseOp_amp (s : List Char) : parseOp ('&' :: s) = some ("&", s) := rfl

theorem parseOp_bar (s : List Char) : parseOp ('|' :: s) = some ("|", s) := rfl

theorem parseOp_imp (s : List Char) :
    parseOp ('=' :: '>' :: s) = some ("=>", s) := rfl

theorem parseOp_iff (s : List Char) :
    parseOp ('<' :: '=' :: '>' :: s) = some ("<=>", s) := rfl

theorem parseTerm_nil : parseTerm [] = none := rfl

theorem parseTerm_not_letter (c : Char) (s : List Char)
    (h : isLetter c = false) : parseTerm (c :: s) = none := by
  simp [parseTerm, List.takeWhile_cons, h]

theorem isLetter_not_ws (c : Char) (h : isLetter c = true) : isWs c = false := by
  unfold isLetter at h
  unfold isWs
  rcases Bool.or_eq_true_iff.mp h with h1 | h1 <;>
  · rw [Bool.and_eq_true] at h1
    obtain ⟨hlo, hhi⟩ := h1
    rw [decide_eq_true_eq] at hlo hhi
    simp only [Bool.or_eq_false_iff, decide_eq_false_iff_not]
    refine ⟨⟨⟨fun he => ?_, fun he => ?_⟩, fun he => ?_⟩, fun he => ?_⟩ <;>
      (subst he; revert hlo hhi; decide)

/-! Fuel monotonicity: a settled outcome (success or failure) is stable
when the parser is run with more fuel. -/

theorem parse_mono (fuel : Nat) :
    (∀ s, parseExprF fuel s ≠ .out → parseExprF (fuel+1) s = parseExprF fuel s) ∧
    (∀ s, parseBinaryF fuel s ≠ .out → parseBinaryF (fuel+1) s = parseBinaryF fuel s) ∧
    (∀ s, parseRestF fuel s ≠ .out → parseRestF (fuel+1) s = parseRestF fuel s) ∧
    (∀ s, parseRestElemF fuel s ≠ .out →
      parseRestElemF (fuel+1) s = parseRestElemF fuel s) ∧
    (∀ s, parseUnaryF fuel s ≠ .out → parseUnaryF (fuel+1) s = parseUnaryF fuel s) ∧
    (∀ s, parseNotF fuel s ≠ .out → parseNotF (fuel+1) s = parseNotF fuel s) := by
  induction fuel with
  | zero =>
    exact ⟨fun s h => absurd rfl h, fun s h => absurd rfl h,
      fun s h => absurd rfl h, fun s h => absurd rfl h,
      fun s h => absurd rfl h, fun s h => absurd rfl h⟩
  | succ fuel ih =>
    obtain ⟨ihE, ihB, ihR, ihL, ihU, ihN⟩ := ih
    have hNot : ∀ s, parseNotF (fuel+1) s ≠ .out →
        parseNotF (fuel+2) s = parseNotF (fuel+1) s := by
      intro s h
      rw [parseNotF_succ fuel s] at h
      rw [parseNotF_succ (fuel+1) s, parseNotF_succ fuel s]
      cases s with
      | nil => rfl
      | cons c s1 =>
        by_cases hc : c = '!'
        · subst hc
          simp only [if_pos rfl] at h ⊢
          cases he : parseExprF fuel (skipWs s1) with
          | out => simp [he] at h
          | fail =>
            have hene : parseExprF fuel (skipWs s1) ≠ .out := by rw [he]; simp
            rw [ihE _ hene, he]
          | ok p =>
            have hene : parseExprF fuel (skipWs s1) ≠ .out := by rw [he]; simp
            rw [ihE _ hene, he]
        · simp only [if_neg hc]
    have hUnary : ∀ s, parseUnaryF (fuel+1) s ≠ .out →
        parseUnaryF (fuel+2) s = parseUnaryF (fuel+1) s := by
      intro s h
      rw [parseUnaryF_succ fuel s] at h
      rw [parseUnaryF_succ (fuel+1) s, parseUnaryF_succ fuel s]
      cases ht : parseTerm (skipWs s) with
      | some p => simp only [ht]
      | none =>
        simp only [ht] at h ⊢
        cases hn : parseNotF fuel (skipWs s) with
        | out => simp [hn] at h
        | ok p =>
          rw [ihN _ (by rw [hn]; simp), hn]
        | fail =>
          rw [ihN _ (by rw [hn]; simp), hn]
          simp only [hn] at h
          cases hsw : skipWs s with
          | nil => rfl
          | cons c s1 =>
            simp only [hsw] at h ⊢
            by_cases hc : c = '('
            · subst hc
              simp only [if_pos rfl] at h ⊢
              cases he : parseExprF fuel s1 with
              | out => simp [he] at h
              | fail =>
                have hene : parseExprF fuel s1 ≠ .out := by rw [he]; simp
                rw [ihE _ hene, he]
              | ok p =>
                have hene : parseExprF fuel s1 ≠ .out := by rw [he]; simp
                rw [ihE _ hene, he]
            · simp only [if_neg hc]
    have hBinary : ∀ s, parseBinaryF (fuel+1) s ≠ .out →
        parseBinaryF (fuel+2) s = parseBinaryF (fuel+1) s := by
      intro s h
      rw [parseBinaryF_succ fuel s] at h
      rw [parseBinaryF_succ (fuel+1) s, parseBinaryF_succ fuel s]
      cases hu : parseUnaryF fuel s with
      | out => simp [hu] at h
      | fail =>
        rw [ihU _ (by rw [hu]; simp), hu]
      | ok p =>
        obtain ⟨l, s1⟩ := p
        rw [ihU _ (by rw [hu]; simp)]
        simp only [hu] at h ⊢
        cases hr : parseRestF fuel (skipWs s1) with
        | out => simp [hr] at h
        | fail =>
          rw [ihR _ (by rw [hr]; simp), hr]
        | ok q =>
          rw [ihR _ (by rw [hr]; simp), hr]
    have hElem : ∀ s, parseRestElemF (fuel+1) s ≠ .out →
        parseRestElemF (fuel+2) s = parseRestElemF (fuel+1) s := by
      intro s h
      rw [parseRestElemF_succ fuel s] at h
      rw [parseRestElemF_succ (fuel+1) s, parseRestElemF_succ fuel s]
      cases ho : parseOp (skipWs s) with
      | none => simp only [ho]
      | some p =>
        obtain ⟨op, s1⟩ := p
        simp only [ho] at h ⊢
        cases hb : parseBinaryF fuel (skipWs s1) with
        | out => simp [hb] at h
        | fail =>
          rw [ihB _ (by rw [hb]; simp), hb]
        | ok q =>
          rw [ihB _ (by rw [hb]; simp), hb]
    have hRest : ∀ s, parseRestF (fuel+1) s ≠ .out →
        parseRestF (fuel+2) s = parseRestF (fuel+1) s := by
      intro s h
      rw [parseRestF_succ fuel s] at h
      rw [parseRestF_succ (fuel+1) s, parseRestF_succ fuel s]
      cases hl : parseRestElemF fuel s with
      | out => simp [hl] at h
      | fail =>
        rw [ihL _ (by rw [hl]; simp), hl]
      | ok p =>
        obtain ⟨q, s1⟩ := p
        rw [ihL _ (by rw [hl]; simp)]
        simp only [hl] at h ⊢
        cases hr : parseRestF fuel s1 with
        | out => simp [hr] at h
        | fail =>
          rw [ihR _ (by rw [hr]; simp), hr]
        | ok r =>
          rw [ihR _ (by rw [hr]; simp), hr]
    have hExpr : ∀ s, parseExprF (fuel+1) s ≠ .out →
        parseExprF (fuel+2) s = parseExprF (fuel+1) s := by
      intro s h
      rw [parseExprF_succ fuel s] at h
      rw [parseExprF_succ (fuel+1) s, parseExprF_succ fuel s]
      cases hb : parseBinaryF fuel (skipWs s) with
      | out => simp [hb] at h
      | ok p =>
        rw [ihB _ (by rw [hb]; simp), hb]
      | fail =>
        rw [ihB _ (by rw [hb]; simp), hb]
        simp only [hb] at h
        cases hu : parseUnaryF fuel (skipWs s) with
        | out => simp [hu] at h
        | ok p =>
          rw [ihU _ (by rw [hu]; simp), hu]
        | fail =>
          rw [ihU _ (by rw [hu]; simp), hu]
    exact ⟨hExpr, hBinary, hRest, hElem, hUnary, hNot⟩

theorem parseExprF_mono_le {f g : Nat} (hfg : f ≤ g) (s : List Char)
    (h : parseExprF f s ≠ .out) : parseExprF g s = parseExprF f s := by
  induction hfg with
  | refl => rfl
  | @step m h' ih =>
    have hm : parseExprF m s ≠ .out := by rw [ih]; exact h
    rw [(parse_mono m).1 s hm, ih]

theorem parseBinaryF_mono_le {f g : Nat} (hfg : f ≤ g) (s : List Char)
    (h : parseBinaryF f s ≠ .out) : parseBinaryF g s = parseBinaryF f s := by
  induction hfg with
  | refl => rfl
  | @step m h' ih =>
    have hm : parseBinaryF m s ≠ .out := by rw [ih]; exact h
    rw [(parse_mono m).2.1 s hm, ih]

/-! Input consumption: a successful parse leaves a remainder no longer
than the input; all rules except the repetition consume at least one
character. -/

theorem skipWs_length_le (s : List Char) : (skipWs s).length ≤ s.length := by
  unfold skipWs
  induction s with
  | nil => simp
  | cons c l ih =>
    rw [List.dropWhile_cons]
    split
    · simp only [List.length_cons]; omega
    · simp

theorem parseTerm_some_parts (s : List Char) (e : Expr) (r : List Char)
    (h : parseTerm s = some (e, r)) :
    r = s.dropWhile isLetter ∧ s.takeWhile isLetter ≠ [] := by
  simp only [parseTerm] at h
  by_cases ht : s.takeWhile isLetter = []
  · rw [if_pos ht] at h; cases h
  · rw [if_neg ht] at h
    refine ⟨?_, ht⟩
    split_ifs at h <;> (cases h; rfl)

theorem parseTerm_length (s : List Char) (e : Expr) (r : List Char)
    (h : parseTerm s = some (e, r)) : r.length < s.length := by
  obtain ⟨rfl, ht⟩ := parseTerm_some_parts s e r h
  have hsplit := List.takeWhile_append_dropWhile isLetter s
  have hlen := congrArg List.length hsplit
  rw [List.length_append] at hlen
  have hpos : 0 < (s.takeWhile isLetter).length := List.length_pos.mpr ht
  omega

theorem parseOp_length (s : List Char) (op : String) (r : List Char)
    (h : parseOp s = some (op, r)) : r.length < s.length := by
  unfold parseOp at h
  cases h1 : matchLit ['&'] s with
  | some r1 =>
    rw [h1] at h; cases h
    have hs := matchLit_eq_append _ _ _ h1
    subst hs; simp
  | none =>
    rw [h1] at h
    cases h2 : matchLit ['|'] s with
    | some r2 =>
      rw [h2] at h; cases h
      have hs := matchLit_eq_append _ _ _ h2
      subst hs
      simp only [List.cons_append, List.length_cons, List.nil_append]
      omega
    | none =>
      rw [h2] at h
      cases h3 : matchLit ['=', '>'] s with
      | some r3 =>
        rw [h3] at h; cases h
        have hs := matchLit_eq_append _ _ _ h3
        subst hs; simp only [List.cons_append, List.length_cons, List.nil_append]; omega
      | none =>
        rw [h3] at h
        cases h4 : matchLit ['<', '=', '>'] s with
        | some r4 =>
          rw [h4] at h; cases h
          have hs := matchLit_eq_append _ _ _ h4
          subst hs; simp only [List.cons_append, List.length_cons, List.nil_append]; omega
        | none => rw [h4] at h; cases h

theorem parse_length (fuel : Nat) :
    (∀ s e r, parseExprF fuel s = .ok (e, r) → r.length < s.length) ∧
    (∀ s e r, parseBinaryF fuel s = .ok (e, r) → r.length < s.length) ∧
    (∀ s ps r, parseRestF fuel s = .ok (ps, r) → r.length ≤ s.length) ∧
    (∀ s p r, parseRestElemF fuel s = .ok (p, r) → r.length < s.length) ∧
    (∀ s e r, parseUnaryF fuel s = .ok (e, r) → r.length < s.length) ∧
    (∀ s e r, parseNotF fuel s = .ok (e, r) → r.length < s.length) := by
  induction fuel with
  | zero =>
    refine ⟨?_, ?_, ?_, ?_, ?_, ?_⟩ <;> (intro s a b h; cases h)
  | succ fuel ih =>
    obtain ⟨ihE, ihB, ihR, ihL, ihU, ihN⟩ := ih
    have hNot : ∀ s e r, parseNotF (fuel+1) s = .ok (e, r) →
        r.length < s.length := by
      intro s e r h
      cases s with
      | nil => simp only [parseNotF_succ] at h; exact PRes.noConfusion h
      | cons c s1 =>
        simp only [parseNotF_succ] at h
        by_cases hc : c = '!'
        · rw [if_pos hc] at h
          cases he : parseExprF fuel (skipWs s1) with
          | out => simp only [he] at h; exact PRes.noConfusion h
          | fail => simp only [he] at h; exact PRes.noConfusion h
          | ok p =>
            obtain ⟨e1, r1⟩ := p
            simp only [he] at h
            obtain ⟨rfl, rfl⟩ := h
            have h1 := ihE _ _ _ he
            have h2 := skipWs_length_le s1
            simp only [List.length_cons]
            omega
        · rw [if_neg hc] at h
          cases h
    have hUnary : ∀ s e r, parseUnaryF (fuel+1) s = .ok (e, r) →
        r.length < s.length := by
      intro s e r h
      simp only [parseUnaryF_succ] at h
      have hsw := skipWs_length_le s
      cases ht : parseTerm (skipWs s) with
      | some p =>
        obtain ⟨e1, r1⟩ := p
        simp only [ht] at h
        obtain ⟨rfl, rfl⟩ := h
        have h1 := parseTerm_length _ _ _ ht
        have h2 := skipWs_length_le r1
        omega
      | none =>
        simp only [ht] at h
        cases hn : parseNotF fuel (skipWs s) with
        | out => simp only [hn] at h; exact PRes.noConfusion h
        | ok p =>
          obtain ⟨e1, r1⟩ := p
          simp only [hn] at h
          obtain ⟨rfl, rfl⟩ := h
          have h1 := ihN _ _ _ hn
          have h2 := skipWs_length_le r1
          omega
        | fail =>
          simp only [hn] at h
          cases hs0 : skipWs s with
          | nil => simp only [hs0] at h; exact PRes.noConfusion h
          | cons c s1 =>
            simp only [hs0] at h
            by_cases hc : c = '('
            · rw [if_pos hc] at h
              cases he : parseExprF fuel s1 with
              | out => simp only [he] at h; exact PRes.noConfusion h
              | fail => simp only [he] at h; exact PRes.noConfusion h
              | ok p =>
                obtain ⟨e1, r1⟩ := p
                cases r1 with
                | nil => simp only [he] at h; exact PRes.noConfusion h
                | cons c2 r2 =>
                  simp only [he] at h
                  by_cases hc2 : c2 = ')'
                  · rw [if_pos hc2] at h
                    obtain ⟨rfl, rfl⟩ := h
                    have h1 := ihE _ _ _ he
                    have h2 := skipWs_length_le r2
                    have h3 : s1.length + 1 = (skipWs s).length := by
                      rw [hs0]; rfl
                    simp only [List.length_cons] at h1
                    omega
                  · rw [if_neg hc2] at h
                    cases h
            · rw [if_neg hc] at h
              cases h
    have hBinary : ∀ s e r, parseBinaryF (fuel+1) s = .ok (e, r) →
        r.length < s.length := by
      intro s e r h
      simp only [parseBinaryF_succ] at h
      cases hu : parseUnaryF fuel s with
      | out => simp only [hu] at h; exact PRes.noConfusion h
      | fail => simp only [hu] at h; exact PRes.noConfusion h
      | ok p =>
        obtain ⟨l, s1⟩ := p
        simp only [hu] at h
        cases hr : parseRestF fuel (skipWs s1) with
        | out => simp only [hr] at h; exact PRes.noConfusion h
        | fail => simp only [hr] at h; exact PRes.noConfusion h
        | ok q =>
          obtain ⟨ps, s2⟩ := q
          simp only [hr] at h
          obtain ⟨rfl, rfl⟩ := h
          have h1 := ihU _ _ _ hu
          have h2 := ihR _ _ _ hr
          have h3 := skipWs_length_le s1
          omega
    have hElem : ∀ s p r, parseRestElemF (fuel+1) s = .ok (p, r) →
        r.length < s.length := by
      intro s p r h
      simp only [parseRestElemF_succ] at h
      cases ho : parseOp (skipWs s) with
      | none => simp only [ho] at h; exact PRes.noConfusion h
      | some q =>
        obtain ⟨op, s1⟩ := q
        simp only [ho] at h
        cases hb : parseBinaryF fuel (skipWs s1) with
        | out => simp only [hb] at h; exact PRes.noConfusion h
        | fail => simp only [hb] at h; exact PRes.noConfusion h
        | ok q2 =>
          obtain ⟨e1, s2⟩ := q2
          simp only [hb] at h
          obtain ⟨rfl, rfl⟩ := h
          have h1 := parseOp_length _ _ _ ho
          have h2 := ihB _ _ _ hb
          have h3 := skipWs_length_le s
          have h4 := skipWs_length_le s1
          omega
    have hRest : ∀ s ps r, parseRestF (fuel+1) s = .ok (ps, r) →
        r.length ≤ s.length := by
      intro s ps r h
      simp only [parseRestF_succ] at h
      cases hl : parseRestElemF fuel s with
      | out => simp only [hl] at h; exact PRes.noConfusion h
      | fail =>
        simp only [hl] at h
        obtain ⟨rfl, rfl⟩ := h
        exact le_refl _
      | ok p =>
        obtain ⟨q, s1⟩ := p
        simp only [hl] at h
        cases hr : parseRestF fuel s1 with
        | out => simp only [hr] at h; exact PRes.noConfusion h
        | fail => simp only [hr] at h; exact PRes.noConfusion h
        | ok p2 =>
          obtain ⟨ps2, s2⟩ := p2
          simp only [hr] at h
          obtain ⟨rfl, rfl⟩ := h
          have h1 := ihL _ _ _ hl
          have h2 := ihR _ _ _ hr
          omega
    have hExpr : ∀ s e r, parseExprF (fuel+1) s = .ok (e, r) →
        r.length < s.length := by
      intro s e r h
      simp only [parseExprF_succ] at h
      have hsw := skipWs_length_le s
      cases hb : parseBinaryF fuel (skipWs s) with
      | out => simp only [hb] at h; exact PRes.noConfusion h
      | ok p =>
        obtain ⟨e1, r1⟩ := p
        simp only [hb] at h
        obtain ⟨rfl, rfl⟩ := h
        have h1 := ihB _ _ _ hb
        have h2 := skipWs_length_le r1
        omega
      | fail =>
        simp only [hb] at h
        cases hu : parseUnaryF fuel (skipWs s) with
        | out => simp only [hu] at h; exact PRes.noConfusion h
        | fail => simp only [hu] at h; exact PRes.noConfusion h
        | ok p =>
          obtain ⟨e1, r1⟩ := p
          simp only [hu] at h
          obtain ⟨rfl, rfl⟩ := h
          have h1 := ihU _ _ _ hu
          have h2 := skipWs_length_le r1
          omega
    exact ⟨hExpr, hBinary, hRest, hElem, hUnary, hNot⟩

/-! Fuel sufficiency: with fuel linear in the input length the parser
never reports fuel exhaustion, so the fixed fuel budget of the top-level
entry point is always enough. -/

theorem parse_no_out (fuel : Nat) :
    (∀ s, 8 * s.length + 5 ≤ fuel → parseExprF fuel s ≠ .out) ∧
    (∀ s, 8 * s.length + 4 ≤ fuel → parseBinaryF fuel s ≠ .out) ∧
    (∀ s, 8 * s.length + 3 ≤ fuel → parseRestF fuel s ≠ .out) ∧
    (∀ s, 8 * s.length + 2 ≤ fuel → parseRestElemF fuel s ≠ .out) ∧
    (∀ s, 8 * s.length + 3 ≤ fuel → parseUnaryF fuel s ≠ .out) ∧
    (∀ s, 8 * s.length + 2 ≤ fuel → parseNotF fuel s ≠ .out) := by
  induction fuel with
  | zero =>
    refine ⟨?_, ?_, ?_, ?_, ?_, ?_⟩ <;> (intro s hb; omega)
  | succ fuel ih =>
    obtain ⟨ihE, ihB, ihR, ihL, ihU, ihN⟩ := ih
    have hNot : ∀ s, 8 * s.length + 2 ≤ fuel + 1 → parseNotF (fuel+1) s ≠ .out := by
      intro s hb
      rw [parseNotF_succ]
      cases s with
      | nil => simp
      | cons c s1 =>
        simp only []
        by_cases hc : c = '!'
        · rw [if_pos hc]
          have hlen := skipWs_length_le s1
          cases he : parseExprF fuel (skipWs s1) with
          | ok p => simp
          | fail => simp
          | out =>
            exact absurd he (ihE _ (by simp only [List.length_cons] at hb; omega))
        · rw [if_neg hc]; simp
    have hUnary : ∀ s, 8 * s.length + 3 ≤ fuel + 1 → parseUnaryF (fuel+1) s ≠ .out := by
      intro s hb
      rw [parseUnaryF_succ]
      have hsw := skipWs_length_le s
      cases ht : parseTerm (skipWs s) with
      | some p => simp
      | none =>
        simp only []
        cases hn : parseNotF fuel (skipWs s) with
        | out => exact absurd hn (ihN _ (by omega))
        | ok p => simp [hn]
        | fail =>
          simp only [hn]
          cases hs0 : skipWs s with
          | nil => simp
          | cons c s1 =>
            simp only []
            by_cases hc : c = '('
            · rw [if_pos hc]
              have hlen : s1.length + 1 = (skipWs s).length := by rw [hs0]; rfl
              cases he : parseExprF fuel s1 with
              | out => exact absurd he (ihE _ (by omega))
              | fail => simp
              | ok p =>
                obtain ⟨e1, r1⟩ := p
                cases r1 with
                | nil => simp
                | cons c2 r2 =>
                  simp only []
                  by_cases hc2 : c2 = ')'
                  · rw [if_pos hc2]; simp
                  · rw [if_neg hc2]; simp
            · rw [if_neg hc]; simp
    have hBinary : ∀ s, 8 * s.length + 4 ≤ fuel + 1 → parseBinaryF (fuel+1) s ≠ .out := by
      intro s hb
      rw [parseBinaryF_succ]
      cases hu : parseUnaryF fuel s with
      | out => exact absurd hu (ihU _ (by omega))
      | fail => simp
      | ok p =>
        obtain ⟨l, s1⟩ := p
        simp only []
        have hu1 := (parse_length fuel).2.2.2.2.1 _ _ _ hu
        have hsw := skipWs_length_le s1
        cases hr : parseRestF fuel (skipWs s1) with
        | out => exact absurd hr (ihR _ (by omega))
        | fail => simp [hr]
        | ok q => simp [hr]
    have hElem : ∀ s, 8 * s.length + 2 ≤ fuel + 1 → parseRestElemF (fuel+1) s ≠ .out := by
      intro s hb
      rw [parseRestElemF_succ]
      cases ho : parseOp (skipWs s) with
      | none => simp
      | some q =>
        obtain ⟨op, s1⟩ := q
        simp only []
        have ho1 := parseOp_length _ _ _ ho
        have hsw := skipWs_length_le s
        have hsw1 := skipWs_length_le s1
        cases hbin : parseBinaryF fuel (skipWs s1) with
        | out => exact absurd hbin (ihB _ (by omega))
        | fail => simp [hbin]
        | ok q2 => simp [hbin]
    have hRest : ∀ s, 8 * s.length + 3 ≤ fuel + 1 → parseRestF (fuel+1) s ≠ .out := by
      intro s hb
      rw [parseRestF_succ]
      cases hl : parseRestElemF fuel s with
      | out => exact absurd hl (ihL _ (by omega))
      | fail => simp
      | ok p =>
        obtain ⟨q, s1⟩ := p
        simp only []
        have hl1 := (parse_length fuel).2.2.2.1 _ _ _ hl
        cases hr : parseRestF fuel s1 with
        | out => exact absurd hr (ihR _ (by omega))
        | fail => simp [hr]
        | ok p2 => simp [hr]
    have hExpr : ∀ s, 8 * s.length + 5 ≤ fuel + 1 → parseExprF (fuel+1) s ≠ .out := by
      intro s hb
      rw [parseExprF_succ]
      have hsw := skipWs_length_le s
      cases hbin : parseBinaryF fuel (skipWs s) with
      | out => exact absurd hbin (ihB _ (by omega))
      | ok p => simp
      | fail =>
        simp only []
        cases hu : parseUnaryF fuel (skipWs s) with
        | out => exact absurd hu (ihU _ (by omega))
        | ok p => simp [hu]
        | fail => simp [hu]
    exact ⟨hExpr, hBinary, hRest, hElem, hUnary, hNot⟩

/-! The keyword invariant: no parse result contains a Term node named
true or false, because the term rule maps those idents to the constants. -/

/-- Every Term node of the tree carries a name other than true and false. -/
def goodTerms : Expr → Bool
  | .True => true
  | .False => true
  | .Term t => t != "true" && t != "false"
  | .Not e => goodTerms e
  | .And l r => goodTerms l && goodTerms r
  | .Or l r => goodTerms l && goodTerms r
  | .Imply l r => goodTerms l && goodTerms r
  | .Equiv l r => goodTerms l && goodTerms r

theorem parseTerm_goodTerms (s : List Char) (e : Expr) (r : List Char)
    (h : parseTerm s = some (e, r)) : goodTerms e = true := by
  simp only [parseTerm] at h
  by_cases ht : s.takeWhile isLetter = []
  · rw [if_pos ht] at h; cases h
  · rw [if_neg ht] at h
    split_ifs at h with h1 h2 <;> cases h
    · rfl
    · rfl
    · simp [goodTerms, h1, h2]

theorem mkOp_goodTerms (op : String) (l r : Expr) :
    goodTerms (mkOp op l r) = (goodTerms l && goodTerms r) := by
  unfold mkOp
  split_ifs <;> rfl

theorem foldOps_goodTerms (ps : List (String × Expr)) : ∀ l : Expr,
    goodTerms l = true → (∀ p ∈ ps, goodTerms p.2 = true) →
    goodTerms (foldOps l ps) = true := by
  induction ps with
  | nil => intro l hl _; exact hl
  | cons p ps ih =>
    intro l hl hps
    rw [show foldOps l (p :: ps) = foldOps (mkOp p.1 l p.2) ps from rfl]
    refine ih _ ?_ fun q hq => hps q (List.mem_cons_of_mem _ hq)
    rw [mkOp_goodTerms, hl, hps p (List.mem_cons_self p ps)]
    rfl

theorem parse_goodTerms (fuel : Nat) :
    (∀ s e r, parseExprF fuel s = .ok (e, r) → goodTerms e = true) ∧
    (∀ s e r, parseBinaryF fuel s = .ok (e, r) → goodTerms e = true) ∧
    (∀ s ps r, parseRestF fuel s = .ok (ps, r) →
      ∀ p ∈ ps, goodTerms p.2 = true) ∧
    (∀ s p r, parseRestElemF fuel s = .ok (p, r) → goodTerms p.2 = true) ∧
    (∀ s e r, parseUnaryF fuel s = .ok (e, r) → goodTerms e = true) ∧
    (∀ s e r, parseNotF fuel s = .ok (e, r) → goodTerms e = true) := by
  induction fuel with
  | zero =>
    refine ⟨?_, ?_, ?_, ?_, ?_, ?_⟩ <;> (intro s a b h; cases h)
  | succ fuel ih =>
    obtain ⟨ihE, ihB, ihR, ihL, ihU, ihN⟩ := ih
    have hNot : ∀ s e r, parseNotF (fuel+1) s = .ok (e, r) →
        goodTerms e = true := by
      intro s e r h
      cases s with
      | nil => simp only [parseNotF_succ] at h; exact PRes.noConfusion h
      | cons c s1 =>
        simp only [parseNotF_succ] at h
        by_cases hc : c = '!'
        · rw [if_pos hc] at h
          cases he : parseExprF fuel (skipWs s1) with
          | out => simp only [he] at h; exact PRes.noConfusion h
          | fail => simp only [he] at h; exact PRes.noConfusion h
          | ok p =>
            obtain ⟨e1, r1⟩ := p
            simp only [he] at h
            obtain ⟨rfl, rfl⟩ := h
            exact ihE _ e1 _ he
        · rw [if_neg hc] at h; cases h
    have hUnary : ∀ s e r, parseUnaryF (fuel+1) s = .ok (e, r) →
        goodTerms e = true := by
      intro s e r h
      simp only [parseUnaryF_succ] at h
      cases ht : parseTerm (skipWs s) with
      | some p =>
        obtain ⟨e1, r1⟩ := p
        simp only [ht] at h
        obtain ⟨rfl, rfl⟩ := h
        exact parseTerm_goodTerms _ _ _ ht
      | none =>
        simp only [ht] at h
        cases hn : parseNotF fuel (skipWs s) with
        | out => simp only [hn] at h; exact PRes.noConfusion h
        | ok p =>
          obtain ⟨e1, r1⟩ := p
          simp only [hn] at h
          obtain ⟨rfl, rfl⟩ := h
          exact ihN _ _ _ hn
        | fail =>
          simp only [hn] at h
          cases hs0 : skipWs s with
          | nil => simp only [hs0] at h; exact PRes.noConfusion h
          | cons c s1 =>
            simp only [hs0] at h
            by_cases hc : c = '('
            · rw [if_pos hc] at h
              cases he : parseExprF fuel s1 with
              | out => simp only [he] at h; exact PRes.noConfusion h
              | fail => simp only [he] at h; exact PRes.noConfusion h
              | ok p =>
                obtain ⟨e1, r1⟩ := p
                cases r1 with
                | nil => simp only [he] at h; exact PRes.noConfusion h
                | cons c2 r2 =>
                  simp only [he] at h
                  by_cases hc2 : c2 = ')'
                  · rw [if_pos hc2] at h
                    obtain ⟨rfl, rfl⟩ := h
                    exact ihE _ _ _ he
                  · rw [if_neg hc2] at h; cases h
            · rw [if_neg hc] at h; cases h
    have hBinary : ∀ s e r, parseBinaryF (fuel+1) s = .ok (e, r) →
        goodTerms e = true := by
      intro s e r h
      simp only [parseBinaryF_succ] at h
      cases hu : parseUnaryF fuel s with
      | out => simp only [hu] at h; exact PRes.noConfusion h
      | fail => simp only [hu] at h; exact PRes.noConfusion h
      | ok p =>
        obtain ⟨l, s1⟩ := p
        simp only [hu] at h
        cases hr : parseRestF fuel (skipWs s1) with
        | out => simp only [hr] at h; exact PRes.noConfusion h
        | fail => simp only [hr] at h; exact PRes.noConfusion h
        | ok q =>
          obtain ⟨ps, s2⟩ := q
          simp only [hr] at h
          obtain ⟨rfl, rfl⟩ := h
          exact foldOps_goodTerms ps _ (ihU _ _ _ hu) (ihR _ _ _ hr)
    have hElem : ∀ s p r, parseRestElemF (fuel+1) s = .ok (p, r) →
        goodTerms p.2 = true := by
      intro s p r h
      simp only [parseRestElemF_succ] at h
      cases ho : parseOp (skipWs s) with
      | none => simp only [ho] at h; exact PRes.noConfusion h
      | some q =>
        obtain ⟨op, s1⟩ := q
        simp only [ho] at h
        cases hb : parseBinaryF fuel (skipWs s1) with
        | out => simp only [hb] at h; exact PRes.noConfusion h
        | fail => simp only [hb] at h; exact PRes.noConfusion h
        | ok q2 =>
          obtain ⟨e1, s2⟩ := q2
          simp only [hb] at h
          obtain ⟨rfl, rfl⟩ := h
          exact ihB _ _ _ hb
    have hRest : ∀ s ps r, parseRestF (fuel+1) s = .ok (ps, r) →
        ∀ p ∈ ps, goodTerms p.2 = true := by
      intro s ps r h
      simp only [parseRestF_succ] at h
      cases hl : parseRestElemF fuel s with
      | out => simp only [hl] at h; exact PRes.noConfusion h
      | fail =>
        simp only [hl] at h
        obtain ⟨rfl, rfl⟩ := h
        intro p hp
        cases hp
      | ok p =>
        obtain ⟨q, s1⟩ := p
        simp only [hl] at h
        cases hr : parseRestF fuel s1 with
        | out => simp only [hr] at h; exact PRes.noConfusion h
        | fail => simp only [hr] at h; exact PRes.noConfusion h
        | ok p2 =>
          obtain ⟨ps2, s2⟩ := p2
          simp only [hr] at h
          obtain ⟨rfl, rfl⟩ := h
          intro p hp
          rcases List.mem_cons.mp hp with rfl | hp
          · exact ihL _ _ _ hl
          · exact ihR _ _ _ hr p hp
    have hExpr : ∀ s e r, parseExprF (fuel+1) s = .ok (e, r) →
        goodTerms e = true := by
      intro s e r h
      simp only [parseExprF_succ] at h
      cases hb : parseBinaryF fuel (skipWs s) with
      | out => simp only [hb] at h; exact PRes.noConfusion h
      | ok p =>
        obtain ⟨e1, r1⟩ := p
        simp only [hb] at h
        obtain ⟨rfl, rfl⟩ := h
        exact ihB _ _ _ hb
      | fail =>
        simp only [hb] at h
        cases hu : parseUnaryF fuel (skipWs s) with
        | out => simp only [hu] at h; exact PRes.noConfusion h
        | fail => simp only [hu] at h; exact PRes.noConfusion h
        | ok p =>
          obtain ⟨e1, r1⟩ := p
          simp only [hu] at h
          obtain ⟨rfl, rfl⟩ := h
          exact ihU _ _ _ hu
    exact ⟨hExpr, hBinary, hRest, hElem, hUnary, hNot⟩

theorem parse_expression_goodTerms (s : String) (e : Expr)
    (h : parse_expression s = some e) : goodTerms e = true := by
  unfold parse_expression parseExprTop at h
  cases hp : parseExprF (exprFuel s.data) s.data with
  | ok p =>
    obtain ⟨e1, r⟩ := p
    rw [hp] at h
    cases r with
    | nil =>
      simp only [Option.some.injEq] at h
      subst h
      exact (parse_goodTerms _).1 _ _ _ hp
    | cons c r2 => simp at h
  | fail => rw [hp] at h; cases h
  | out => rw [hp] at h; cases h

/-! The round-trip law: a canonical fully parenthesized printer whose
output parses back to the original tree, provided every Term name is a
nonempty all-letter identifier other than true and false. -/

/-- Node count of a tree, used only to budget parser fuel. -/
def sizeE : Expr → Nat
  | .True => 1
  | .False => 1
  | .Term _ => 1
  | .Not e => sizeE e + 1
  | .And l r => sizeE l + sizeE r + 1
  | .Or l r => sizeE l + sizeE r + 1
  | .Imply l r => sizeE l + sizeE r + 1
  | .Equiv l r => sizeE l + sizeE r + 1

/-- The canonical printer: keywords for the constants, the bare name for a
variable, and parentheses around every negation and binary node. -/
def printL : Expr → List Char
  | .True => ['t', 'r', 'u', 'e']
  | .False => ['f', 'a', 'l', 's', 'e']
  | .Term t => t.data
  | .Not e => '(' :: '!' :: (printL e ++ [')'])
  | .And l r => '(' :: (printL l ++ '&' :: (printL r ++ [')']))
  | .Or l r => '(' :: (printL l ++ '|' :: (printL r ++ [')']))
  | .Imply l r => '(' :: (printL l ++ '=' :: '>' :: (printL r ++ [')']))
  | .Equiv l r => '(' :: (printL l ++ '<' :: '=' :: '>' :: (printL r ++ [')']))

/-- The canonical printer as a string. -/
def canonPrint (e : Expr) : String := String.mk (printL e)

/-- Every Term name is a nonempty all-letter identifier other than the
keywords true and false, so it prints back to a parseable ident. -/
def validNames : Expr → Bool
  | .True => true
  | .False => true
  | .Term t => !t.data.isEmpty && t.data.all isLetter &&
      t != "true" && t != "false"
  | .Not e => validNames e
  | .And l r => validNames l && validNames r
  | .Or l r => validNames l && validNames r
  | .Imply l r => validNames l && validNames r
  | .Equiv l r => validNames l && validNames r

/-- Characters that may legally follow a printed operand: a closing
parenthesis or the first character of an operator. -/
def safeRest (rest : List Char) : Prop :=
  rest = [] ∨ ∃ c cs, rest = c :: cs ∧
    (c = ')' ∨ c = '&' ∨ c = '|' ∨ c = '=' ∨ c = '<')

/-- Characters that may legally follow a printed expression: only a
closing parenthesis, or the end of the input. -/
def eRest (rest : List Char) : Prop :=
  rest = [] ∨ ∃ cs, rest = ')' :: cs

theorem safeRest_of_eRest {rest : List Char} (h : eRest rest) : safeRest rest := by
  rcases h with rfl | ⟨cs, rfl⟩
  · exact Or.inl rfl
  · exact Or.inr ⟨')', cs, rfl, Or.inl rfl⟩

theorem skipWs_safeRest {rest : List Char} (h : safeRest rest) :
    skipWs rest = rest := by
  rcases h with rfl | ⟨c, cs, rfl, hc⟩
  · rfl
  · refine skipWs_cons_of_not_ws c cs ?_
    rcases hc with rfl | rfl | rfl | rfl | rfl <;> rfl

theorem takeWhile_letter_safeRest {rest : List Char} (h : safeRest rest) :
    rest.takeWhile isLetter = [] := by
  rcases h with rfl | ⟨c, cs, rfl, hc⟩
  · rfl
  · rw [List.takeWhile_cons]
    rcases hc with rfl | rfl | rfl | rfl | rfl <;> rfl

theorem parseOp_eRest {rest : List Char} (h : eRest rest) :
    parseOp (skipWs rest) = none := by
  rcases h with rfl | ⟨cs, rfl⟩
  · rfl
  · rw [skipWs_safeRest (safeRest_of_eRest (Or.inr ⟨cs, rfl⟩))]
    exact parseOp_rparen cs

theorem printL_head_not_ws (f : Expr) (hf : validNames f = true)
    (rest : List Char) : skipWs (printL f ++ rest) = printL f ++ rest := by
  cases f with
  | True => rfl
  | False => rfl
  | Term t =>
    simp only [validNames, Bool.and_eq_true] at hf
    obtain ⟨⟨⟨hne, hall⟩, _⟩, _⟩ := hf
    cases hd : t.data with
    | nil => simp [hd] at hne
    | cons c cs =>
      have hc : isLetter c = true := by
        rw [List.all_eq_true] at hall
        exact hall c (by rw [hd]; exact List.mem_cons_self c cs)
      rw [show printL (.Term t) = t.data from rfl, hd]
      exact skipWs_cons_of_not_ws c (cs ++ rest) (isLetter_not_ws c hc)
  | Not e => exact skipWs_cons_of_not_ws _ _ rfl
  | And l r => exact skipWs_cons_of_not_ws _ _ rfl
  | Or l r => exact skipWs_cons_of_not_ws _ _ rfl
  | Imply l r => exact skipWs_cons_of_not_ws _ _ rfl
  | Equiv l r => exact skipWs_cons_of_not_ws _ _ rfl

theorem restF_stop (fuel : Nat) (s : List Char) (h2 : 2 ≤ fuel)
    (hop : parseOp (skipWs s) = none) : parseRestF fuel s = .ok ([], s) := by
  obtain ⟨k, rfl⟩ : ∃ k, fuel = k + 2 := ⟨fuel - 2, by omega⟩
  rw [parseRestF_succ, parseRestElemF_succ, hop]

theorem binary_of_unary (f : Expr) (b : Nat)
    (hU : ∀ fuel rest, b ≤ fuel → safeRest rest →
      parseUnaryF fuel (printL f ++ rest) = .ok (f, rest)) :
    ∀ fuel rest, b + 3 ≤ fuel → eRest rest →
      parseBinaryF fuel (printL f ++ rest) = .ok (f, rest) := by
  intro fuel rest hb hrest
  obtain ⟨k, rfl⟩ : ∃ k, fuel = k + 1 := ⟨fuel - 1, by omega⟩
  rw [parseBinaryF_succ, hU k rest (by omega) (safeRest_of_eRest hrest)]
  simp only []
  rw [skipWs_safeRest (safeRest_of_eRest hrest),
    restF_stop k rest (by omega) (parseOp_eRest hrest)]
  rfl

theorem expr_of_binary (f : Expr) (b : Nat) (hf : validNames f = true)
    (hB : ∀ fuel rest, b ≤ fuel → eRest rest →
      parseBinaryF fuel (printL f ++ rest) = .ok (f, rest)) :
    ∀ fuel rest, b + 1 ≤ fuel → eRest rest →
      parseExprF fuel (printL f ++ rest) = .ok (f, rest) := by
  intro fuel rest hb hrest
  obtain ⟨k, rfl⟩ : ∃ k, fuel = k + 1 := ⟨fuel - 1, by omega⟩
  rw [parseExprF_succ, printL_head_not_ws f hf rest,
    hB k rest (by omega) hrest]
  simp only []
  rw [skipWs_safeRest (safeRest_of_eRest hrest)]

theorem dropWhile_eq_self_of_takeWhile_nil {p : Char → Bool} (rest : List Char)
    (hr : rest.takeWhile p = []) : rest.dropWhile p = rest := by
  cases rest with
  | nil => rfl
  | cons c cs =>
    rw [List.takeWhile_cons] at hr
    rw [List.dropWhile_cons]
    by_cases hp : p c = true
    · rw [if_pos hp] at hr; cases hr
    · rw [if_neg hp]

theorem takeWhile_append_of_all {p : Char → Bool} (a rest : List Char)
    (ha : ∀ c ∈ a, p c = true) :
    (a ++ rest).takeWhile p = a ++ rest.takeWhile p := by
  induction a with
  | nil => rfl
  | cons c a ih =>
    rw [List.cons_append, List.takeWhile_cons,
      if_pos (ha c (List.mem_cons_self c a)),
      ih fun d hd => ha d (List.mem_cons_of_mem _ hd), List.cons_append]

theorem dropWhile_append_of_all {p : Char → Bool} (a rest : List Char)
    (ha : ∀ c ∈ a, p c = true) :
    (a ++ rest).dropWhile p = rest.dropWhile p := by
  induction a with
  | nil => rfl
  | cons c a ih =>
    rw [List.cons_append, List.dropWhile_cons,
      if_pos (ha c (List.mem_cons_self c a)),
      ih fun d hd => ha d (List.mem_cons_of_mem _ hd)]

theorem parseTerm_ident_append (t : String) (rest : List Char)
    (hne : t.data ≠ []) (hall : ∀ c ∈ t.data, isLetter c = true)
    (hrest : rest.takeWhile isLetter = []) :
    parseTerm (t.data ++ rest) =
      (if t = "true" then some (.True, rest)
       else if t = "false" then some (.False, rest)
       else some (.Term t, rest)) := by
  have htake : (t.data ++ rest).takeWhile isLetter = t.data := by
    rw [takeWhile_append_of_all t.data rest hall, hrest, List.append_nil]
  have hdrop : (t.data ++ rest).dropWhile isLetter = rest := by
    rw [dropWhile_append_of_all t.data rest hall,
      dropWhile_eq_self_of_takeWhile_nil rest hrest]
  simp only [parseTerm, htake, hdrop, if_neg hne]

/-- The parse of one printed binary node: the left operand, the operator,
the right operand, all inside parentheses. -/
theorem print_parse_unary_bin (l r g : Expr) (op : String) (ops : List Char)
    (bl br : Nat)
    (hops : ∀ s : List Char, parseOp (ops ++ s) = some (op, s))
    (hops_head : ∃ c cs, ops = c :: cs ∧
      (c = '&' ∨ c = '|' ∨ c = '=' ∨ c = '<'))
    (hmk : mkOp op l r = g)
    (hvl : validNames l = true) (hvr : validNames r = true)
    (hUl : ∀ fuel rest, bl ≤ fuel → safeRest rest →
      parseUnaryF fuel (printL l ++ rest) = .ok (l, rest))
    (hUr : ∀ fuel rest, br ≤ fuel → safeRest rest →
      parseUnaryF fuel (printL r ++ rest) = .ok (r, rest)) :
    ∀ fuel rest, bl + br + 16 ≤ fuel → safeRest rest →
      parseUnaryF fuel
        (('(' :: (printL l ++ (ops ++ (printL r ++ [')'])))) ++ rest) =
        .ok (g, rest) := by
  intro fuel rest hfuel hrest
  obtain ⟨k, rfl⟩ : ∃ k, fuel = k + 8 := ⟨fuel - 8, by omega⟩
  obtain ⟨c0, cs0, rfl, hc0⟩ := hops_head
  have hBr := binary_of_unary r br hUr
  -- the input inside the parentheses
  have hassoc : (('(' :: (printL l ++ ((c0 :: cs0) ++ (printL r ++ [')'])))) ++ rest)
      = '(' :: ((printL l ++ ((c0 :: cs0) ++ (printL r ++ (')' :: rest))))) := by
    simp [List.append_assoc]
  rw [hassoc]
  have hRestL : skipWs ((c0 :: cs0) ++ (printL r ++ (')' :: rest))) =
      (c0 :: cs0) ++ (printL r ++ (')' :: rest)) := by
    refine skipWs_cons_of_not_ws c0 _ ?_
    rcases hc0 with rfl | rfl | rfl | rfl <;> rfl
  have hsafeL : safeRest ((c0 :: cs0) ++ (printL r ++ (')' :: rest))) :=
    Or.inr ⟨c0, cs0 ++ (printL r ++ (')' :: rest)), rfl, by
      rcases hc0 with rfl | rfl | rfl | rfl
      · exact Or.inr (Or.inl rfl)
      · exact Or.inr (Or.inr (Or.inl rfl))
      · exact Or.inr (Or.inr (Or.inr (Or.inl rfl)))
      · exact Or.inr (Or.inr (Or.inr (Or.inr rfl)))⟩
  -- right operand as a binary chain
  have hBinR : parseBinaryF (k + 3) (printL r ++ (')' :: rest)) =
      .ok (r, ')' :: rest) :=
    hBr (k + 3) (')' :: rest) (by omega) (Or.inr ⟨rest, rfl⟩)
  -- one repetition element: the operator then the right chain
  have hElem : parseRestElemF (k + 4)
      ((c0 :: cs0) ++ (printL r ++ (')' :: rest))) =
      .ok ((op, r), ')' :: rest) := by
    rw [parseRestElemF_succ, hRestL, hops]
    simp only []
    rw [printL_head_not_ws r hvr, hBinR]
  -- the repetition collects exactly that element
  have hRest2 : parseRestF (k + 5)
      ((c0 :: cs0) ++ (printL r ++ (')' :: rest))) =
      .ok ([(op, r)], ')' :: rest) := by
    rw [parseRestF_succ, hElem]
    simp only []
    rw [restF_stop (k + 4) (')' :: rest) (by omega)
      (by rw [skipWs_cons_of_not_ws ')' _ rfl]; exact parseOp_rparen rest)]
  -- the binary chain inside the parentheses
  have hBin : parseBinaryF (k + 6)
      (printL l ++ ((c0 :: cs0) ++ (printL r ++ (')' :: rest)))) =
      .ok (g, ')' :: rest) := by
    rw [parseBinaryF_succ, hUl (k + 5) _ (by omega) hsafeL]
    simp only []
    rw [hRestL, hRest2]
    simp only []
    rw [show foldOps l [(op, r)] = mkOp op l r from rfl, hmk]
  -- the expression inside the parentheses
  have hExpr : parseExprF (k + 7)
      (printL l ++ ((c0 :: cs0) ++ (printL r ++ (')' :: rest)))) =
      .ok (g, ')' :: rest) := by
    rw [parseExprF_succ, printL_head_not_ws l hvl, hBin]
    simp only []
    rw [skipWs_cons_of_not_ws ')' _ rfl]
  -- the outer unary: parenthesized expression
  rw [parseUnaryF_succ]
  rw [skipWs_cons_of_not_ws '(' _ rfl]
  rw [parseTerm_not_letter '(' _ rfl]
  have hNF : parseNotF (k + 7)
      ('(' :: (printL l ++ ((c0 :: cs0) ++ (printL r ++ (')' :: rest))))) =
      .fail := by
    rw [parseNotF_succ]
    simp only []
    rw [if_neg (by decide)]
  rw [hNF]
  simp only []
  rw [if_pos trivial, hExpr]
  simp only []
  rw [if_pos trivial, skipWs_safeRest hrest]

/-- The central round-trip lemma: the printed form of a tree with valid
names parses back, as the unary rule, to exactly that tree. -/
theorem print_parse_unary (f : Expr) (hf : validNames f = true) :
    ∀ fuel rest, 32 * sizeE f + 16 ≤ fuel → safeRest rest →
      parseUnaryF fuel (printL f ++ rest) = .ok (f, rest) := by
  induction f with
  | True =>
    intro fuel rest hfuel hrest
    obtain ⟨k, rfl⟩ : ∃ k, fuel = k + 1 := ⟨fuel - 1, by omega⟩
    rw [parseUnaryF_succ, printL_head_not_ws .True rfl rest,
      show printL .True = "true".data from rfl,
      parseTerm_ident_append "true" rest (by decide) (by decide)
        (takeWhile_letter_safeRest hrest), if_pos rfl]
    simp only []
    rw [skipWs_safeRest hrest]
  | False =>
    intro fuel rest hfuel hrest
    obtain ⟨k, rfl⟩ : ∃ k, fuel = k + 1 := ⟨fuel - 1, by omega⟩
    rw [parseUnaryF_succ, printL_head_not_ws .False rfl rest,
      show printL .False = "false".data from rfl,
      parseTerm_ident_append "false" rest (by decide) (by decide)
        (takeWhile_letter_safeRest hrest), if_neg (by decide), if_pos rfl]
    simp only []
    rw [skipWs_safeRest hrest]
  | Term t =>
    intro fuel rest hfuel hrest
    obtain ⟨k, rfl⟩ : ∃ k, fuel = k + 1 := ⟨fuel - 1, by omega⟩
    have hf' := hf
    rw [show validNames (.Term t) = (!t.data.isEmpty && t.data.all isLetter &&
      t != "true" && t != "false") from rfl] at hf'
    simp only [Bool.and_eq_true, bne_iff_ne, Bool.not_eq_true'] at hf'
    obtain ⟨⟨⟨hne, hall⟩, ht1⟩, ht2⟩ := hf'
    have hne' : t.data ≠ [] := by
      intro h0
      rw [h0] at hne
      cases hne
    have hall' : ∀ c ∈ t.data, isLetter c = true := List.all_eq_true.mp hall
    rw [parseUnaryF_succ, printL_head_not_ws (.Term t) hf rest,
      show printL (.Term t) = t.data from rfl,
      parseTerm_ident_append t rest hne' hall'
        (takeWhile_letter_safeRest hrest), if_neg ht1, if_neg ht2]
    simp only []
    rw [skipWs_safeRest hrest]
  | Not e ih =>
    intro fuel rest hfuel hrest
    have hfe : validNames e = true := hf
    rw [show sizeE (.Not e) = sizeE e + 1 from rfl] at hfuel
    obtain ⟨k, rfl⟩ : ∃ k, fuel = k + 8 := ⟨fuel - 8, by omega⟩
    have hE := expr_of_binary e _ hfe (binary_of_unary e _ (ih hfe))
    have hInner : parseExprF (k + 3) (printL e ++ (')' :: rest)) =
        .ok (e, ')' :: rest) :=
      hE (k + 3) (')' :: rest) (by omega) (Or.inr ⟨rest, rfl⟩)
    have hNotStep : parseNotF (k + 4) ('!' :: (printL e ++ (')' :: rest))) =
        .ok (.Not e, ')' :: rest) := by
      rw [parseNotF_succ]
      simp only []
      rw [if_pos trivial, printL_head_not_ws e hfe, hInner]
    have hU3 : parseUnaryF (k + 5) ('!' :: (printL e ++ (')' :: rest))) =
        .ok (.Not e, ')' :: rest) := by
      rw [parseUnaryF_succ, skipWs_cons_of_not_ws '!' _ rfl,
        parseTerm_not_letter '!' _ rfl, hNotStep]
      simp only []
      rw [skipWs_cons_of_not_ws ')' _ rfl]
    have hB2 : parseBinaryF (k + 6) ('!' :: (printL e ++ (')' :: rest))) =
        .ok (.Not e, ')' :: rest) := by
      rw [parseBinaryF_succ, hU3]
      simp only []
      rw [skipWs_cons_of_not_ws ')' _ rfl,
        restF_stop (k + 5) (')' :: rest) (by omega)
          (by rw [skipWs_cons_of_not_ws ')' _ rfl]; exact parseOp_rparen rest)]
      rfl
    have hE2 : parseExprF (k + 7) ('!' :: (printL e ++ (')' :: rest))) =
        .ok (.Not e, ')' :: rest) := by
      rw [parseExprF_succ, skipWs_cons_of_not_ws '!' _ rfl, hB2]
      simp only []
      rw [skipWs_cons_of_not_ws ')' _ rfl]
    have hassoc : printL (.Not e) ++ rest =
        '(' :: ('!' :: (printL e ++ (')' :: rest))) := by
      simp [printL, List.append_assoc]
    rw [hassoc, parseUnaryF_succ, skipWs_cons_of_not_ws '(' _ rfl,
      parseTerm_not_letter '(' _ rfl]
    have hNF : parseNotF (k + 7)
        ('(' :: ('!' :: (printL e ++ (')' :: rest)))) = .fail := by
      rw [parseNotF_succ]
      simp only []
      rw [if_neg (by decide)]
    rw [hNF]
    simp only []
    rw [if_pos trivial, hE2]
    simp only []
    rw [if_pos trivial, skipWs_safeRest hrest]
  | And l r ihl ihr =>
    intro fuel rest hfuel hrest
    have hf' := hf
    rw [show validNames (.And l r) = (validNames l && validNames r) from rfl,
      Bool.and_eq_true] at hf'
    obtain ⟨hvl, hvr⟩ := hf'
    have h := print_parse_unary_bin l r (.And l r) "&" ['&']
      (32 * sizeE l + 16) (32 * sizeE r + 16)
      (fun s => parseOp_amp s) ⟨'&', [], rfl, Or.inl rfl⟩ rfl hvl hvr
      (ihl hvl) (ihr hvr)
    rw [show sizeE (.And l r) = sizeE l + sizeE r + 1 from rfl] at hfuel
    exact h fuel rest (by omega) hrest
  | Or l r ihl ihr =>
    intro fuel rest hfuel hrest
    have hf' := hf
    rw [show validNames (.Or l r) = (validNames l && validNames r) from rfl,
      Bool.and_eq_true] at hf'
    obtain ⟨hvl, hvr⟩ := hf'
    have h := print_parse_unary_bin l r (.Or l r) "|" ['|']
      (32 * sizeE l + 16) (32 * sizeE r + 16)
      (fun s => parseOp_bar s) ⟨'|', [], rfl, Or.inr (Or.inl rfl)⟩ rfl hvl hvr
      (ihl hvl) (ihr hvr)
    rw [show sizeE (.Or l r) = sizeE l + sizeE r + 1 from rfl] at hfuel
    exact h fuel rest (by omega) hrest
  | Imply l r ihl ihr =>
    intro fuel rest hfuel hrest
    have hf' := hf
    rw [show validNames (.Imply l r) = (validNames l && validNames r) from rfl,
      Bool.and_eq_true] at hf'
    obtain ⟨hvl, hvr⟩ := hf'
    have h := print_parse_unary_bin l r (.Imply l r) "=>" ['=', '>']
      (32 * sizeE l + 16) (32 * sizeE r + 16)
      (fun s => parseOp_imp s)
      ⟨'=', ['>'], rfl, Or.inr (Or.inr (Or.inl rfl))⟩ rfl hvl hvr
      (ihl hvl) (ihr hvr)
    rw [show sizeE (.Imply l r) = sizeE l + sizeE r + 1 from rfl] at hfuel
    exact h fuel rest (by omega) hrest
  | Equiv l r ihl ihr =>
    intro fuel rest hfuel hrest
    have hf' := hf
    rw [show validNames (.Equiv l r) = (validNames l && validNames r) from rfl,
      Bool.and_eq_true] at hf'
    obtain ⟨hvl, hvr⟩ := hf'
    have h := print_parse_unary_bin l r (.Equiv l r) "<=>" ['<', '=', '>']
      (32 * sizeE l + 16) (32 * sizeE r + 16)
      (fun s => parseOp_iff s)
      ⟨'<', ['=', '>'], rfl, Or.inr (Or.inr (Or.inr rfl))⟩ rfl hvl hvr
      (ihl hvl) (ihr hvr)
    rw [show sizeE (.Equiv l r) = sizeE l + sizeE r + 1 from rfl] at hfuel
    exact h fuel rest (by omega) hrest

/-- Round trip at the top level: the printed form of any tree with valid
names parses back to that tree through the public entry point. -/
theorem print_parse_roundtrip (f : Expr) (hf : validNames f = true) :
    parse_expression (canonPrint f) = some f := by
  have hU := print_parse_unary f hf
  have hE := expr_of_binary f (32 * sizeE f + 16 + 3) hf
    (binary_of_unary f (32 * sizeE f + 16) hU)
  unfold parse_expression parseExprTop
  rw [show (canonPrint f).data = printL f from rfl]
  have h1 : parseExprF (exprFuel (printL f) + (32 * sizeE f + 20))
      (printL f) = .ok (f, []) := by
    have := hE (exprFuel (printL f) + (32 * sizeE f + 20)) [] (by omega)
      (Or.inl rfl)
    rw [List.append_nil] at this
    exact this
  have h2 : parseExprF (exprFuel (printL f)) (printL f) ≠ .out :=
    (parse_no_out _).1 _ (by unfold exprFuel; omega)
  have h3 := parseExprF_mono_le
    (Nat.le_add_right (exprFuel (printL f)) (32 * sizeE f + 20)) (printL f) h2
  rw [h3] at h1
  rw [h1]

/-! Suffix extension: appending a closing parenthesis (or nothing) to an
input does not change a successful parse whose remainder is empty or
starts with a closing parenthesis.  This underlies the transparency of
parenthesization. -/

theorem parseUnaryF_mono_le {f g : Nat} (hfg : f ≤ g) (s : List Char)
    (h : parseUnaryF f s ≠ .out) : parseUnaryF g s = parseUnaryF f s := by
  induction hfg with
  | refl => rfl
  | @step m h' ih =>
    have hm : parseUnaryF m s ≠ .out := by rw [ih]; exact h
    rw [(parse_mono m).2.2.2.2.1 s hm, ih]

theorem rest_ne_fail (fuel : Nat) : ∀ s, parseRestF fuel s ≠ .fail := by
  induction fuel with
  | zero => intro s h; cases h
  | succ fuel ih =>
    intro s h
    rw [parseRestF_succ] at h
    cases hl : parseRestElemF fuel s with
    | out => rw [hl] at h; cases h
    | fail => rw [hl] at h; cases h
    | ok p =>
      obtain ⟨q, s1⟩ := p
      simp only [hl] at h
      cases hr : parseRestF fuel s1 with
      | out => simp only [hr] at h; exact PRes.noConfusion h
      | fail => exact ih s1 hr
      | ok p2 => simp only [hr] at h; exact PRes.noConfusion h

theorem unary_nil_not_ok (fuel : Nat) (e : Expr) (r : List Char) :
    parseUnaryF fuel [] ≠ .ok (e, r) := by
  intro h
  have := (parse_length fuel).2.2.2.2.1 [] e r h
  simp at this

theorem binary_nil_not_ok (fuel : Nat) (e : Expr) (r : List Char) :
    parseBinaryF fuel [] ≠ .ok (e, r) := by
  intro h
  have := (parse_length fuel).2.1 [] e r h
  simp at this

theorem expr_nil_not_ok (fuel : Nat) (e : Expr) (r : List Char) :
    parseExprF fuel [] ≠ .ok (e, r) := by
  intro h
  have := (parse_length fuel).1 [] e r h
  simp at this

theorem parseTerm_none_cons (c : Char) (s : List Char)
    (h : parseTerm (c :: s) = none) : isLetter c = false := by
  cases hc : isLetter c
  · rfl
  · exfalso
    have htw : (c :: s).takeWhile isLetter = c :: s.takeWhile isLetter := by
      rw [List.takeWhile_cons, if_pos hc]
    simp only [parseTerm, htw] at h
    rw [if_neg (by simp)] at h
    split_ifs at h <;> cases h

theorem binary_fail_ok_absurd {g g' : Nat} {X : List Char}
    {p : Expr × List Char} (hf : parseBinaryF g X = .fail)
    (ho : parseBinaryF g' X = .ok p) : False := by
  rcases le_total g g' with h | h
  · have := parseBinaryF_mono_le h X (by rw [hf]; simp)
    rw [this, hf] at ho
    cases ho
  · have := parseBinaryF_mono_le h X (by rw [ho]; simp)
    rw [this, ho] at hf
    cases hf

/-- A legal suffix for the extension lemma: nothing, or text starting
with a closing parenthesis. -/
def safeU (u : List Char) : Prop := u = [] ∨ ∃ w, u = ')' :: w

/-- A remainder at which the whole surrounding parse can stop: after the
whitespace it is empty or starts with a closing parenthesis. -/
def goodRem (r : List Char) : Prop :=
  skipWs r = [] ∨ ∃ cs, skipWs r = ')' :: cs

theorem skipWs_safeU {u : List Char} (h : safeU u) : skipWs u = u := by
  rcases h with rfl | ⟨w, rfl⟩
  · rfl
  · exact skipWs_cons_of_not_ws ')' w rfl

theorem takeWhile_safeU {u : List Char} (h : safeU u) :
    u.takeWhile isLetter = [] := by
  rcases h with rfl | ⟨w, rfl⟩
  · rfl
  · rw [List.takeWhile_cons]; rfl

theorem parseOp_safeU {u : List Char} (h : safeU u) : parseOp u = none := by
  rcases h with rfl | ⟨w, rfl⟩
  · rfl
  · exact parseOp_rparen w

theorem matchLit_append_none (p : List Char) (hp : ∀ c ∈ p, c ≠ ')') :
    ∀ s u, safeU u → matchLit p s = none → matchLit p (s ++ u) = none := by
  induction p with
  | nil => intro s u _ h; cases h
  | cons c ps ih =>
    intro s u hu h
    cases s with
    | nil =>
      rcases hu with rfl | ⟨w, rfl⟩
      · exact h
      · simp only [List.nil_append, matchLit]
        rw [if_neg fun he => hp c (List.mem_cons_self c ps) he.symm]
    | cons d ds =>
      rw [List.cons_append]
      simp only [matchLit] at h ⊢
      by_cases hd : d = c
      · rw [if_pos hd] at h ⊢
        exact ih (fun x hx => hp x (List.mem_cons_of_mem _ hx)) ds u hu h
      · rw [if_neg hd]

theorem parseOp_append_some (s u : List Char) (op : String) (r : List Char)
    (hu : safeU u) (h : parseOp s = some (op, r)) :
    parseOp (s ++ u) = some (op, r ++ u) := by
  unfold parseOp at h ⊢
  cases h1 : matchLit ['&'] s with
  | some r1 =>
    rw [h1] at h
    cases h
    rw [matchLit_append_some _ _ _ _ h1]
  | none =>
    rw [h1] at h
    rw [matchLit_append_none ['&'] (by decide) s u hu h1]
    cases h2 : matchLit ['|'] s with
    | some r2 =>
      rw [h2] at h
      cases h
      rw [matchLit_append_some _ _ _ _ h2]
    | none =>
      rw [h2] at h
      rw [matchLit_append_none ['|'] (by decide) s u hu h2]
      cases h3 : matchLit ['=', '>'] s with
      | some r3 =>
        rw [h3] at h
        cases h
        rw [matchLit_append_some _ _ _ _ h3]
      | none =>
        rw [h3] at h
        rw [matchLit_append_none ['=', '>'] (by decide) s u hu h3]
        cases h4 : matchLit ['<', '=', '>'] s with
        | some r4 =>
          rw [h4] at h
          cases h
          rw [matchLit_append_some _ _ _ _ h4]
        | none => rw [h4] at h; cases h

theorem parseTerm_append (s u : List Char) (e : Expr) (r : List Char)
    (hu : safeU u) (h : parseTerm s = some (e, r)) :
    parseTerm (s ++ u) = some (e, r ++ u) := by
  obtain ⟨hr, htok⟩ := parseTerm_some_parts s e r h
  have hattach : ∀ c ∈ s.takeWhile isLetter, isLetter c = true :=
    fun c hc => List.mem_takeWhile_imp hc
  have hs : s = s.takeWhile isLetter ++ s.dropWhile isLetter :=
    (List.takeWhile_append_dropWhile ..).symm
  have hhead : ∀ c cs, s.dropWhile isLetter = c :: cs → isLetter c = false := by
    intro c cs hd
    have : (s.dropWhile isLetter).takeWhile isLetter = [] := by
      have h0 := congrArg (List.takeWhile isLetter) hs
      rw [takeWhile_append_of_all _ _ hattach] at h0
      have := congrArg List.length h0
      rw [List.length_append] at this
      cases hq : (s.dropWhile isLetter).takeWhile isLetter with
      | nil => rfl
      | cons q qs => rw [hq] at this; simp at this
    rw [hd, List.takeWhile_cons] at this
    cases hl : isLetter c
    · rfl
    · rw [if_pos hl] at this; cases this
  have htw_ru : (s.dropWhile isLetter ++ u).takeWhile isLetter = [] := by
    cases hd : s.dropWhile isLetter with
    | nil => simpa using takeWhile_safeU hu
    | cons c cs =>
      rw [List.cons_append, List.takeWhile_cons, if_neg (by
        rw [hhead c cs hd]; exact fun hx => Bool.noConfusion hx)]
  have h1 : (s ++ u).takeWhile isLetter = s.takeWhile isLetter := by
    conv_lhs => rw [hs]
    rw [List.append_assoc, takeWhile_append_of_all _ _ hattach, htw_ru,
      List.append_nil]
  have h2 : (s ++ u).dropWhile isLetter = s.dropWhile isLetter ++ u := by
    conv_lhs => rw [hs]
    rw [List.append_assoc, dropWhile_append_of_all _ _ hattach,
      dropWhile_eq_self_of_takeWhile_nil _ htw_ru]
  subst hr
  simp only [parseTerm] at h ⊢
  rw [h1, h2]
  split_ifs at h ⊢ <;> cases h <;> rfl

theorem rest_nil_ok (fuel : Nat) (ps : List (String × Expr)) (r : List Char)
    (h : parseRestF fuel [] = .ok (ps, r)) : ps = [] ∧ r = [] := by
  cases fuel with
  | zero => cases h
  | succ m =>
    rw [parseRestF_succ] at h
    cases m with
    | zero =>
      rw [show parseRestElemF 0 [] = .out from rfl] at h
      cases h
    | succ m2 =>
      rw [show parseRestElemF (m2+1) [] = .fail from rfl] at h
      cases h
      exact ⟨rfl, rfl⟩

theorem rest_ok_min_fuel (fuel : Nat) (s : List Char)
    (ps : List (String × Expr)) (r : List Char)
    (h : parseRestF fuel s = .ok (ps, r)) : 2 ≤ fuel := by
  cases fuel with
  | zero => cases h
  | succ m =>
    cases m with
    | zero =>
      rw [parseRestF_succ, show parseRestElemF 0 s = .out from rfl] at h
      cases h
    | succ m2 => omega

theorem parseOp_skipWs_append_none {s u : List Char} (hgr : goodRem s)
    (hu : safeU u) : parseOp (skipWs (s ++ u)) = none := by
  by_cases hnil : skipWs s = []
  · rw [skipWs_append_of_nil s u hnil, skipWs_safeU hu]
    exact parseOp_safeU hu
  · rw [skipWs_append_of_ne_nil s u hnil]
    rcases hgr with h0 | ⟨cs, hcs⟩
    · exact absurd h0 hnil
    · rw [hcs]
      exact parseOp_rparen _

theorem rest_stopfact (fuel : Nat) : ∀ s ps r, parseRestF fuel s = .ok (ps, r) →
    parseOp (skipWs r) = none ∨
    ∃ o s2 g, parseOp (skipWs r) = some (o, s2) ∧
      parseBinaryF g (skipWs s2) = PRes.fail := by
  induction fuel with
  | zero => intro s ps r h; cases h
  | succ fuel ih =>
    intro s ps r h
    rw [parseRestF_succ] at h
    cases hl : parseRestElemF fuel s with
    | out => rw [hl] at h; cases h
    | fail =>
      rw [hl] at h
      cases h
      cases fuel with
      | zero => cases hl
      | succ m =>
        rw [parseRestElemF_succ] at hl
        cases ho : parseOp (skipWs s) with
        | none => exact Or.inl rfl
        | some q =>
          obtain ⟨o, s2⟩ := q
          simp only [ho] at hl
          cases hb : parseBinaryF m (skipWs s2) with
          | out => simp only [hb] at hl; exact PRes.noConfusion hl
          | ok p2 => simp only [hb] at hl; exact PRes.noConfusion hl
          | fail => exact Or.inr ⟨o, s2, m, rfl, hb⟩
    | ok p =>
      obtain ⟨q, s1⟩ := p
      simp only [hl] at h
      cases hr : parseRestF fuel s1 with
      | out => simp only [hr] at h; exact PRes.noConfusion h
      | fail => simp only [hr] at h; exact PRes.noConfusion h
      | ok p2 =>
        obtain ⟨ps2, s2⟩ := p2
        simp only [hr] at h
        obtain ⟨rfl, rfl⟩ := h
        exact ih s1 ps2 _ hr

theorem binary_stopfact (fuel : Nat) (s : List Char) (e : Expr) (r : List Char)
    (h : parseBinaryF fuel s = .ok (e, r)) :
    parseOp (skipWs r) = none ∨
    ∃ o s2 g, parseOp (skipWs r) = some (o, s2) ∧
      parseBinaryF g (skipWs s2) = PRes.fail := by
  cases fuel with
  | zero => cases h
  | succ m =>
    rw [parseBinaryF_succ] at h
    cases hu : parseUnaryF m s with
    | out => rw [hu] at h; cases h
    | fail => rw [hu] at h; cases h
    | ok p =>
      obtain ⟨l, s1⟩ := p
      simp only [hu] at h
      cases hr : parseRestF m (skipWs s1) with
      | out => simp only [hr] at h; exact PRes.noConfusion h
      | fail => simp only [hr] at h; exact PRes.noConfusion h
      | ok p2 =>
        obtain ⟨ps2, s2⟩ := p2
        simp only [hr] at h
        obtain ⟨rfl, rfl⟩ := h
        exact rest_stopfact m _ _ _ hr

theorem expr_stopfact (fuel : Nat) (s : List Char) (e : Expr) (r : List Char)
    (h : parseExprF fuel s = .ok (e, r)) :
    parseOp (skipWs r) = none ∨
    ∃ o s2 g, parseOp (skipWs r) = some (o, s2) ∧
      parseBinaryF g (skipWs s2) = PRes.fail := by
  cases fuel with
  | zero => cases h
  | succ m =>
    rw [parseExprF_succ] at h
    cases hb : parseBinaryF m (skipWs s) with
    | out => rw [hb] at h; cases h
    | ok p =>
      obtain ⟨e1, r1⟩ := p
      simp only [hb] at h
      obtain ⟨rfl, rfl⟩ := h
      rw [skipWs_idem r1]
      exact binary_stopfact m _ _ _ hb
    | fail =>
      simp only [hb] at h
      cases hu : parseUnaryF m (skipWs s) with
      | out => simp only [hu] at h; exact PRes.noConfusion h
      | fail => simp only [hu] at h; exact PRes.noConfusion h
      | ok p =>
        exfalso
        cases m with
        | zero => cases hu
        | succ m2 =>
          rw [parseBinaryF_succ] at hb
          cases hu2 : parseUnaryF m2 (skipWs s) with
          | out => rw [hu2] at hb; cases hb
          | fail =>
            have hmono := parseUnaryF_mono_le (Nat.le_succ m2) (skipWs s)
              (by rw [hu2]; simp)
            rw [hmono, hu2] at hu
            cases hu
          | ok p2 =>
            obtain ⟨l, s1⟩ := p2
            simp only [hu2] at hb
            cases hr : parseRestF m2 (skipWs s1) with
            | out => simp only [hr] at hb; exact PRes.noConfusion hb
            | fail => exact rest_ne_fail m2 _ hr
            | ok p3 => simp only [hr] at hb; exact PRes.noConfusion hb

theorem skipWs_append_u {u : List Char} (hu : safeU u) (r : List Char) :
    skipWs (r ++ u) = skipWs r ++ u := by
  by_cases hnil : skipWs r = []
  · rw [skipWs_append_of_nil r u hnil, skipWs_safeU hu, hnil, List.nil_append]
  · exact skipWs_append_of_ne_nil r u hnil

/-- Appending a closing-parenthesis (or empty) suffix to the input of any
of the six parser functions does not change a successful parse whose
remainder allows the surrounding context to stop: the suffix is carried
through to the remainder unchanged.  For the unary parser the remainder
may also be the position of an operator whose right operand parses, which
is what the binary rule needs. -/
theorem parse_append (u : List Char) (hu : safeU u) (fuel : Nat) :
    (∀ s e r, parseExprF fuel s = .ok (e, r) → goodRem r →
      parseExprF fuel (s ++ u) = .ok (e, r ++ u)) ∧
    (∀ s e r, parseBinaryF fuel s = .ok (e, r) → goodRem r →
      parseBinaryF fuel (s ++ u) = .ok (e, r ++ u)) ∧
    (∀ s ps r, parseRestF fuel s = .ok (ps, r) → goodRem r →
      parseRestF fuel (s ++ u) = .ok (ps, r ++ u)) ∧
    (∀ s p r, parseRestElemF fuel s = .ok (p, r) → goodRem r →
      parseRestElemF fuel (s ++ u) = .ok (p, r ++ u)) ∧
    (∀ s e r, parseUnaryF fuel s = .ok (e, r) →
      (goodRem r ∨ ∃ o s2 g p, parseOp (skipWs r) = some (o, s2) ∧
        parseBinaryF g (skipWs s2) = PRes.ok p) →
      parseUnaryF fuel (s ++ u) = .ok (e, r ++ u)) ∧
    (∀ s e r, parseNotF fuel s = .ok (e, r) → goodRem r →
      parseNotF fuel (s ++ u) = .ok (e, r ++ u)) := by
  induction fuel with
  | zero =>
    refine ⟨?_, ?_, ?_, ?_, ?_, ?_⟩ <;> (intro s a b h; cases h)
  | succ fuel ih =>
    obtain ⟨ihE, ihB, ihR, ihL, ihU, ihN⟩ := ih
    have hNot : ∀ s e r, parseNotF (fuel+1) s = .ok (e, r) → goodRem r →
        parseNotF (fuel+1) (s ++ u) = .ok (e, r ++ u) := by
      intro s e r h hgr
      rw [parseNotF_succ] at h
      cases s with
      | nil => exact PRes.noConfusion h
      | cons c s1 =>
        simp only [] at h
        rw [List.cons_append, parseNotF_succ]
        simp only []
        by_cases hc : c = '!'
        · rw [if_pos hc] at h ⊢
          cases he : parseExprF fuel (skipWs s1) with
          | out => simp only [he] at h; exact PRes.noConfusion h
          | fail => simp only [he] at h; exact PRes.noConfusion h
          | ok p =>
            obtain ⟨e1, r1⟩ := p
            simp only [he, PRes.ok.injEq, Prod.mk.injEq] at h
            obtain ⟨rfl, rfl⟩ := h
            rw [skipWs_append_u hu]
            simp only [ihE (skipWs s1) e1 r1 he hgr]
        · rw [if_neg hc] at h
          exact PRes.noConfusion h
    have hUnary : ∀ s e r, parseUnaryF (fuel+1) s = .ok (e, r) →
        (goodRem r ∨ ∃ o s2 g p, parseOp (skipWs r) = some (o, s2) ∧
          parseBinaryF g (skipWs s2) = PRes.ok p) →
        parseUnaryF (fuel+1) (s ++ u) = .ok (e, r ++ u) := by
      intro s e r h hcond
      rw [parseUnaryF_succ] at h ⊢
      rw [skipWs_append_u hu]
      cases ht : parseTerm (skipWs s) with
      | some p =>
        obtain ⟨e1, r1⟩ := p
        simp only [ht, PRes.ok.injEq, Prod.mk.injEq] at h
        obtain ⟨rfl, rfl⟩ := h
        simp only [parseTerm_append (skipWs s) u e1 r1 hu ht]
        rw [skipWs_append_u hu]
      | none =>
        simp only [ht] at h
        cases hn : parseNotF fuel (skipWs s) with
        | out => simp only [hn] at h; exact PRes.noConfusion h
        | ok p =>
          obtain ⟨e1, r1⟩ := p
          simp only [hn, PRes.ok.injEq, Prod.mk.injEq] at h
          obtain ⟨rfl, rfl⟩ := h
          have hs0ne : skipWs s ≠ [] := by
            intro h0
            rw [h0] at hn
            cases fuel with
            | zero => exact PRes.noConfusion hn
            | succ m =>
              rw [parseNotF_succ] at hn
              exact PRes.noConfusion hn
          obtain ⟨c0, cs0, hsc⟩ : ∃ c0 cs0, skipWs s = c0 :: cs0 := by
            cases hx : skipWs s with
            | nil => exact absurd hx hs0ne
            | cons a b => exact ⟨a, b, rfl⟩
          rw [hsc] at ht hn
          have hc0 : isLetter c0 = false := parseTerm_none_cons c0 cs0 ht
          have hgood : goodRem r1 := by
            rcases hcond with hg | ⟨o, s2, g, p2, hop, hbin⟩
            · unfold goodRem at hg ⊢
              rwa [skipWs_idem] at hg
            · exfalso
              rw [skipWs_idem] at hop
              cases fuel with
              | zero => exact PRes.noConfusion hn
              | succ m =>
                rw [parseNotF_succ] at hn
                simp only [] at hn
                by_cases hc0f : c0 = '!'
                · rw [if_pos hc0f] at hn
                  cases hei : parseExprF m (skipWs cs0) with
                  | out => simp only [hei] at hn; exact PRes.noConfusion hn
                  | fail => simp only [hei] at hn; exact PRes.noConfusion hn
                  | ok p3 =>
                    obtain ⟨e3, r3⟩ := p3
                    simp only [hei, PRes.ok.injEq, Prod.mk.injEq] at hn
                    obtain ⟨he3, hr3⟩ := hn
                    subst hr3
                    rcases expr_stopfact m (skipWs cs0) e3 _ hei with
                      hnone | ⟨o7, s8, g7, hop7, hbf⟩
                    · rw [hnone] at hop
                      exact Option.noConfusion hop
                    · rw [hop7] at hop
                      cases hop
                      exact binary_fail_ok_absurd hbf hbin
                · rw [if_neg hc0f] at hn
                  exact PRes.noConfusion hn
          rw [hsc, List.cons_append]
          simp only [parseTerm_not_letter c0 (cs0 ++ u) hc0]
          have hnx := ihN (c0 :: cs0) e1 r1 hn hgood
          rw [List.cons_append] at hnx
          simp only [hnx]
          rw [skipWs_append_u hu]
        | fail =>
          simp only [hn] at h
          cases hsw : skipWs s with
          | nil => rw [hsw] at h; exact PRes.noConfusion h
          | cons c s1 =>
            rw [hsw] at h
            simp only [] at h
            by_cases hc : c = '('
            · rw [if_pos hc] at h
              cases he : parseExprF fuel s1 with
              | out => simp only [he] at h; exact PRes.noConfusion h
              | fail => simp only [he] at h; exact PRes.noConfusion h
              | ok p =>
                obtain ⟨e1, rr⟩ := p
                simp only [he] at h
                cases rr with
                | nil => exact PRes.noConfusion h
                | cons c2 r2 =>
                  simp only [] at h
                  by_cases hc2 : c2 = ')'
                  · rw [if_pos hc2] at h
                    simp only [PRes.ok.injEq, Prod.mk.injEq] at h
                    obtain ⟨rfl, rfl⟩ := h
                    subst hc
                    subst hc2
                    rw [List.cons_append]
                    simp only [parseTerm_not_letter '(' (s1 ++ u) rfl]
                    have hnf : parseNotF fuel ('(' :: (s1 ++ u)) = PRes.fail := by
                      cases fuel with
                      | zero => exact PRes.noConfusion hn
                      | succ m =>
                        rw [parseNotF_succ]
                        simp only []
                        rw [if_neg (by decide : ¬(('(' : Char) = '!'))]
                    simp only [hnf]
                    rw [if_pos trivial]
                    have hex := ihE s1 e1 (')' :: r2) he
                      (Or.inr ⟨r2, skipWs_cons_of_not_ws ')' r2 rfl⟩)
                    rw [List.cons_append] at hex
                    simp only [hex]
                    rw [if_pos trivial]
                    rw [skipWs_append_u hu]
                  · rw [if_neg hc2] at h
                    exact PRes.noConfusion h
            · rw [if_neg hc] at h
              exact PRes.noConfusion h
    have hElem : ∀ s p r, parseRestElemF (fuel+1) s = .ok (p, r) → goodRem r →
        parseRestElemF (fuel+1) (s ++ u) = .ok (p, r ++ u) := by
      intro s p r h hgr
      rw [parseRestElemF_succ] at h ⊢
      rw [skipWs_append_u hu]
      cases ho : parseOp (skipWs s) with
      | none => rw [ho] at h; exact PRes.noConfusion h
      | some q =>
        obtain ⟨o, s2⟩ := q
        simp only [ho] at h
        cases hb : parseBinaryF fuel (skipWs s2) with
        | out => simp only [hb] at h; exact PRes.noConfusion h
        | fail => simp only [hb] at h; exact PRes.noConfusion h
        | ok p2 =>
          obtain ⟨e2, r2⟩ := p2
          simp only [hb, PRes.ok.injEq, Prod.mk.injEq] at h
          obtain ⟨rfl, rfl⟩ := h
          simp only [parseOp_append_some (skipWs s) u o s2 hu ho]
          rw [skipWs_append_u hu]
          simp only [ihB (skipWs s2) e2 r2 hb hgr]
    have hRest : ∀ s ps r, parseRestF (fuel+1) s = .ok (ps, r) → goodRem r →
        parseRestF (fuel+1) (s ++ u) = .ok (ps, r ++ u) := by
      intro s ps r h hgr
      rw [parseRestF_succ] at h ⊢
      cases hl : parseRestElemF fuel s with
      | out => rw [hl] at h; exact PRes.noConfusion h
      | fail =>
        rw [hl] at h
        cases h
        have hlu : parseRestElemF fuel (s ++ u) = PRes.fail := by
          cases fuel with
          | zero => exact PRes.noConfusion hl
          | succ m =>
            simp only [parseRestElemF_succ, parseOp_skipWs_append_none hgr hu]
        simp only [hlu]
      | ok p =>
        obtain ⟨q, s1⟩ := p
        simp only [hl] at h
        cases hr2 : parseRestF fuel s1 with
        | out => simp only [hr2] at h; exact PRes.noConfusion h
        | fail => simp only [hr2] at h; exact PRes.noConfusion h
        | ok p2 =>
          obtain ⟨ps2, r2⟩ := p2
          simp only [hr2, PRes.ok.injEq, Prod.mk.injEq] at h
          obtain ⟨rfl, rfl⟩ := h
          have hstop : ps2 = [] ∧ r2 = s1 := by
            cases fuel with
            | zero => exact PRes.noConfusion hl
            | succ m =>
              rw [parseRestElemF_succ] at hl
              cases ho : parseOp (skipWs s) with
              | none => rw [ho] at hl; exact PRes.noConfusion hl
              | some q4 =>
                obtain ⟨o4, s4⟩ := q4
                simp only [ho] at hl
                cases hb4 : parseBinaryF m (skipWs s4) with
                | out => simp only [hb4] at hl; exact PRes.noConfusion hl
                | fail => simp only [hb4] at hl; exact PRes.noConfusion hl
                | ok p4 =>
                  obtain ⟨e4, s5⟩ := p4
                  simp only [hb4, PRes.ok.injEq, Prod.mk.injEq] at hl
                  obtain ⟨hq4, hs5⟩ := hl
                  subst hs5
                  rw [parseRestF_succ] at hr2
                  cases hl2 : parseRestElemF m s5 with
                  | out => rw [hl2] at hr2; exact PRes.noConfusion hr2
                  | fail =>
                    rw [hl2] at hr2
                    cases hr2
                    exact ⟨rfl, rfl⟩
                  | ok p5 =>
                    exfalso
                    obtain ⟨q5, s6⟩ := p5
                    cases m with
                    | zero => exact PRes.noConfusion hl2
                    | succ m2 =>
                      rw [parseRestElemF_succ] at hl2
                      cases ho2 : parseOp (skipWs s5) with
                      | none => rw [ho2] at hl2; exact PRes.noConfusion hl2
                      | some q6 =>
                        obtain ⟨o6, s7⟩ := q6
                        simp only [ho2] at hl2
                        cases hb6 : parseBinaryF m2 (skipWs s7) with
                        | out => simp only [hb6] at hl2; exact PRes.noConfusion hl2
                        | fail => simp only [hb6] at hl2; exact PRes.noConfusion hl2
                        | ok p6 =>
                          rcases binary_stopfact _ _ _ _ hb4 with
                            hnone | ⟨o7, s8, g7, hop7, hbf⟩
                          · rw [hnone] at ho2
                            exact Option.noConfusion ho2
                          · rw [hop7] at ho2
                            cases ho2
                            exact binary_fail_ok_absurd hbf hb6
          obtain ⟨rfl, rfl⟩ := hstop
          simp only [ihL s q _ hl hgr]
          simp only [ihR _ [] _ hr2 hgr]
    have hBinary : ∀ s e r, parseBinaryF (fuel+1) s = .ok (e, r) → goodRem r →
        parseBinaryF (fuel+1) (s ++ u) = .ok (e, r ++ u) := by
      intro s e r h hgr
      rw [parseBinaryF_succ] at h ⊢
      cases hun : parseUnaryF fuel s with
      | out => rw [hun] at h; exact PRes.noConfusion h
      | fail => rw [hun] at h; exact PRes.noConfusion h
      | ok p =>
        obtain ⟨l, s1⟩ := p
        simp only [hun] at h
        cases hr : parseRestF fuel (skipWs s1) with
        | out => simp only [hr] at h; exact PRes.noConfusion h
        | fail => simp only [hr] at h; exact PRes.noConfusion h
        | ok p2 =>
          obtain ⟨ps, r2⟩ := p2
          simp only [hr, PRes.ok.injEq, Prod.mk.injEq] at h
          obtain ⟨rfl, rfl⟩ := h
          have hucond : goodRem s1 ∨ ∃ o s2 g p,
              parseOp (skipWs s1) = some (o, s2) ∧
              parseBinaryF g (skipWs s2) = PRes.ok p := by
            cases fuel with
            | zero => exact PRes.noConfusion hr
            | succ m =>
              rw [parseRestF_succ] at hr
              cases hl : parseRestElemF m (skipWs s1) with
              | out => rw [hl] at hr; exact PRes.noConfusion hr
              | fail =>
                rw [hl] at hr
                cases hr
                left
                unfold goodRem at hgr ⊢
                rwa [skipWs_idem] at hgr
              | ok pe =>
                obtain ⟨q3, s3⟩ := pe
                cases m with
                | zero => exact PRes.noConfusion hl
                | succ m2 =>
                  rw [parseRestElemF_succ] at hl
                  cases ho : parseOp (skipWs (skipWs s1)) with
                  | none => rw [ho] at hl; exact PRes.noConfusion hl
                  | some q4 =>
                    obtain ⟨o4, s4⟩ := q4
                    simp only [ho] at hl
                    cases hb4 : parseBinaryF m2 (skipWs s4) with
                    | out => simp only [hb4] at hl; exact PRes.noConfusion hl
                    | fail => simp only [hb4] at hl; exact PRes.noConfusion hl
                    | ok p4 =>
                      rw [skipWs_idem] at ho
                      exact Or.inr ⟨o4, s4, m2, p4, ho, hb4⟩
          simp only [ihU s l s1 hun hucond]
          rw [skipWs_append_u hu]
          simp only [ihR (skipWs s1) ps r2 hr hgr]
    have hExpr : ∀ s e r, parseExprF (fuel+1) s = .ok (e, r) → goodRem r →
        parseExprF (fuel+1) (s ++ u) = .ok (e, r ++ u) := by
      intro s e r h hgr
      rw [parseExprF_succ] at h ⊢
      rw [skipWs_append_u hu]
      cases hb : parseBinaryF fuel (skipWs s) with
      | out => rw [hb] at h; exact PRes.noConfusion h
      | ok p =>
        obtain ⟨e1, r1⟩ := p
        simp only [hb, PRes.ok.injEq, Prod.mk.injEq] at h
        obtain ⟨rfl, rfl⟩ := h
        have hgr1 : goodRem r1 := by
          unfold goodRem at hgr ⊢
          rwa [skipWs_idem] at hgr
        simp only [ihB (skipWs s) e1 r1 hb hgr1]
        rw [skipWs_append_u hu]
      | fail =>
        simp only [hb] at h
        cases hun : parseUnaryF fuel (skipWs s) with
        | out => simp only [hun] at h; exact PRes.noConfusion h
        | fail => simp only [hun] at h; exact PRes.noConfusion h
        | ok p =>
          exfalso
          obtain ⟨e1, r1⟩ := p
          cases fuel with
          | zero => exact PRes.noConfusion hun
          | succ m =>
            rw [parseBinaryF_succ] at hb
            cases hu2 : parseUnaryF m (skipWs s) with
            | out => rw [hu2] at hb; exact PRes.noConfusion hb
            | fail =>
              have hmono := parseUnaryF_mono_le (Nat.le_succ m) (skipWs s)
                (by rw [hu2]; simp)
              rw [hmono, hu2] at hun
              exact PRes.noConfusion hun
            | ok p2 =>
              obtain ⟨l, s1⟩ := p2
              simp only [hu2] at hb
              cases hr : parseRestF m (skipWs s1) with
              | out => simp only [hr] at hb; exact PRes.noConfusion hb
              | fail => exact rest_ne_fail m _ hr
              | ok p3 => simp only [hr] at hb; exact PRes.noConfusion hb
    exact ⟨hExpr, hBinary, hRest, hElem, hUnary, hNot⟩

/-! Lemmas about the evaluator. -/

theorem check_vars_and (l r : Expr) (a : Assign) :
    check_vars (.And l r) a = (check_vars l a && check_vars r a) := by
  simp [check_vars, get_vars_, List.all_append]

theorem check_vars_or (l r : Expr) (a : Assign) :
    check_vars (.Or l r) a = (check_vars l a && check_vars r a) := by
  simp [check_vars, get_vars_, List.all_append]

theorem check_vars_imply (l r : Expr) (a : Assign) :
    check_vars (.Imply l r) a = (check_vars l a && check_vars r a) := by
  simp [check_vars, get_vars_, List.all_append]

theorem check_vars_equiv (l r : Expr) (a : Assign) :
    check_vars (.Equiv l r) a = (check_vars l a && check_vars r a) := by
  simp [check_vars, get_vars_, List.all_append]

theorem interpret_isSome_of_check (e : Expr) (a : Assign)
    (h : check_vars e a = true) : (interpret_ e a).isSome := by
  induction e with
  | True => simp [interpret_]
  | False => simp [interpret_]
  | Term t =>
    simp only [check_vars, get_vars_, List.all_cons, List.all_nil,
      Bool.and_true] at h
    simpa [interpret_] using h
  | Not e ih =>
    have he : check_vars e a = true := h
    simp [interpret_, he, Option.isSome_map, ih he]
  | And l r ihl ihr =>
    rw [check_vars_and, Bool.and_eq_true] at h
    obtain ⟨x, hx⟩ := Option.isSome_iff_exists.mp (ihl h.1)
    obtain ⟨y, hy⟩ := Option.isSome_iff_exists.mp (ihr h.2)
    simp [interpret_, h.1, h.2, hx, hy]
  | Or l r ihl ihr =>
    rw [check_vars_or, Bool.and_eq_true] at h
    obtain ⟨x, hx⟩ := Option.isSome_iff_exists.mp (ihl h.1)
    obtain ⟨y, hy⟩ := Option.isSome_iff_exists.mp (ihr h.2)
    simp [interpret_, h.1, h.2, hx, hy]
  | Imply l r ihl ihr =>
    rw [check_vars_imply, Bool.and_eq_true] at h
    obtain ⟨x, hx⟩ := Option.isSome_iff_exists.mp (ihl h.1)
    obtain ⟨y, hy⟩ := Option.isSome_iff_exists.mp (ihr h.2)
    simp [interpret_, h.1, h.2, hx, hy]
  | Equiv l r ihl ihr =>
    rw [check_vars_equiv, Bool.and_eq_true] at h
    obtain ⟨x, hx⟩ := Option.isSome_iff_exists.mp (ihl h.1)
    obtain ⟨y, hy⟩ := Option.isSome_iff_exists.mp (ihr h.2)
    simp [interpret_, h.1, h.2, hx, hy]

theorem interpret_none_iff (e : Expr) (a : Assign) :
    interpret e a = none ↔ ∃ s ∈ get_vars_ e, lookupVar s a = none := by
  unfold interpret
  cases hc : check_vars e a
  · simp only [Bool.false_eq_true, if_false, true_iff]
    have h : ¬ ∀ s ∈ get_vars_ e, (lookupVar s a).isSome = true := by
      intro hall
      have : check_vars e a = true := by
        simpa [check_vars, List.all_eq_true] using hall
      simp [hc] at this
    push_neg at h
    obtain ⟨s, hmem, hns⟩ := h
    refine ⟨s, hmem, ?_⟩
    cases hl : lookupVar s a
    · rfl
    · simp [hl] at hns
  · have hs := interpret_isSome_of_check e a hc
    simp only [eq_self_iff_true, if_true]
    constructor
    · intro hn
      rw [hn] at hs
      simp at hs
    · rintro ⟨s, hmem, hnone⟩
      have hall : ∀ s ∈ get_vars_ e, (lookupVar s a).isSome = true := by
        have := hc
        unfold check_vars at this
        exact List.all_eq_true.mp this
      have := hall s hmem
      simp [hnone] at this

theorem interpret_imply_or (p q : Expr) (a : Assign) :
    interpret (.Imply p q) a = interpret (.Or (.Not p) q) a := by
  have hc : check_vars (Expr.Imply p q) a = check_vars (Expr.Or (.Not p) q) a := by
    simp [check_vars, get_vars_]
  unfold interpret
  rw [hc]
  cases hor : check_vars (Expr.Or (.Not p) q) a
  · simp
  · simp only [eq_self_iff_true, if_true]
    have hpq := hor
    rw [check_vars_or, Bool.and_eq_true] at hpq
    have hp : check_vars p a = true := by
      simpa [check_vars, get_vars_] using hpq.1
    have hq : check_vars q a = true := hpq.2
    have hnp : check_vars (Expr.Not p) a = true := by
      simpa [check_vars, get_vars_] using hp
    simp only [interpret_, hp, hq, hnp, eq_self_iff_true, if_true]
    cases hx : interpret_ p a <;> simp [hx]

/-! Lemmas about the truth-table builder. -/

theorem insertVar_fresh (t : Assign) (v : String) (b : Bool)
    (h : ∀ p ∈ t, p.1 ≠ v) : insertVar t v b = t ++ [(v, b)] := by
  induction t with
  | nil => rfl
  | cons p rest ih =>
    have hp : p.1 ≠ v := h p (List.mem_cons_self p rest)
    obtain ⟨k', v'⟩ := p
    simp only [insertVar, if_neg hp, List.cons_append, List.cons.injEq,
      true_and]
    exact ih fun q hq => h q (List.mem_cons_of_mem _ hq)

theorem mem_table_step (ts : List Assign) (v : String) (x : Assign) :
    x ∈ table_step ts v ↔
      ∃ t ∈ ts, x = insertVar t v false ∨ x = insertVar t v true := by
  induction ts with
  | nil => simp [table_step]
  | cons t rest ih =>
    have step_eq : table_step (t :: rest) v =
        insertVar t v false :: insertVar t v true :: table_step rest v := rfl
    rw [step_eq]
    simp only [List.mem_cons, ih]
    constructor
    · rintro (h | h | ⟨t', ht', hx⟩)
      · exact ⟨t, Or.inl rfl, Or.inl h⟩
      · exact ⟨t, Or.inl rfl, Or.inr h⟩
      · exact ⟨t', Or.inr ht', hx⟩
    · rintro ⟨t', rfl | ht', hx⟩
      · rcases hx with rfl | rfl
        · exact Or.inl rfl
        · exact Or.inr (Or.inl rfl)
      · exact Or.inr (Or.inr ⟨t', ht', hx⟩)

theorem length_table_step (ts : List Assign) (v : String) :
    (table_step ts v).length = 2 * ts.length := by
  induction ts with
  | nil => rfl
  | cons t rest ih =>
    simp only [table_step, List.foldr_cons, List.length_cons] at *
    omega

/-- The invariant carried through the doubling loop: every table binds
exactly the processed variables in order, the tables are pairwise
distinct, and there are two to the number of processed variables. -/
def TableInv (done : List String) (ts : List Assign) : Prop :=
  (∀ t ∈ ts, t.map Prod.fst = done) ∧ ts.Nodup ∧ ts.length = 2 ^ done.length

theorem table_step_fresh_eq (done : List String) (v : String) (t : Assign)
    (hk : t.map Prod.fst = done) (hv : v ∉ done) (b : Bool) :
    insertVar t v b = t ++ [(v, b)] := by
  refine insertVar_fresh t v b fun p hp => ?_
  intro he
  exact hv (hk ▸ List.mem_map.mpr ⟨p, hp, he⟩)

theorem table_step_nodup (done : List String) (ts : List Assign) (v : String)
    (hkeys : ∀ t ∈ ts, t.map Prod.fst = done) (hnd : ts.Nodup)
    (hv : v ∉ done) : (table_step ts v).Nodup := by
  induction ts with
  | nil => simp [table_step]
  | cons t rest ih =>
    have hkt : t.map Prod.fst = done := hkeys t (List.mem_cons_self t rest)
    have hkr : ∀ t' ∈ rest, t'.map Prod.fst = done :=
      fun t' h => hkeys t' (List.mem_cons_of_mem _ h)
    have htl : t ∉ rest := (List.nodup_cons.mp hnd).1
    have hndr : rest.Nodup := (List.nodup_cons.mp hnd).2
    have step_eq : table_step (t :: rest) v =
        insertVar t v false :: insertVar t v true :: table_step rest v := rfl
    rw [step_eq, table_step_fresh_eq done v t hkt hv,
      table_step_fresh_eq done v t hkt hv]
    have hlen : ∀ t' ∈ rest, t'.length = t.length := by
      intro t' h
      have := hkr t' h
      have h2 : t'.map Prod.fst = t.map Prod.fst := by rw [this, hkt]
      have := congrArg List.length h2
      simpa using this
    have hnotmem : ∀ b : Bool, t ++ [(v, b)] ∉ table_step rest v := by
      intro b hmem
      obtain ⟨t', ht', hx⟩ := (mem_table_step rest v _).mp hmem
      have hfr := table_step_fresh_eq done v t' (hkr t' ht') hv
      rcases hx with hx | hx <;>
      · rw [hfr] at hx
        have := List.append_inj hx (by simpa using (hlen t' ht').symm)
        exact htl (this.1 ▸ ht')
    refine List.nodup_cons.mpr ⟨?_, List.nodup_cons.mpr ⟨hnotmem true, ?_⟩⟩
    · intro hmem
      rcases List.mem_cons.mp hmem with heq | hmem
      · have := List.append_inj heq rfl
        simp at this
      · exact hnotmem false hmem
    · exact ih hkr hndr

theorem table_step_inv (done : List String) (ts : List Assign) (v : String)
    (hinv : TableInv done ts) (hv : v ∉ done) :
    TableInv (done ++ [v]) (table_step ts v) := by
  obtain ⟨hkeys, hnd, hlen⟩ := hinv
  refine ⟨?_, table_step_nodup done ts v hkeys hnd hv, ?_⟩
  · intro x hx
    obtain ⟨t, ht, hins⟩ := (mem_table_step ts v x).mp hx
    have hfr := table_step_fresh_eq done v t (hkeys t ht) hv
    rcases hins with rfl | rfl <;>
      simp [hfr, hkeys t ht]
  · rw [length_table_step, hlen]
    have hl1 : (done ++ [v]).length = done.length + 1 := by simp
    rw [hl1, pow_succ]
    ring

theorem foldl_table_inv (vs : List String) :
    ∀ done ts, TableInv done ts → (done ++ vs).Nodup →
      TableInv (done ++ vs) (vs.foldl table_step ts) := by
  induction vs with
  | nil => intro done ts h _; simpa using h
  | cons v vs ih =>
    intro done ts hinv hnd
    have hv : v ∉ done := by
      have hdisj := List.disjoint_of_nodup_append hnd
      intro hmem
      exact hdisj hmem (List.mem_cons_self v vs)
    have hassoc : done ++ v :: vs = (done ++ [v]) ++ vs := by simp
    rw [hassoc] at hnd ⊢
    rw [List.foldl_cons]
    exact ih (done ++ [v]) (table_step ts v) (table_step_inv done ts v hinv hv) hnd

theorem lookupVar_eq_none_of_not_mem (a : Assign) (k : String)
    (h : k ∉ a.map Prod.fst) : lookupVar k a = none := by
  induction a with
  | nil => rfl
  | cons p rest ih =>
    obtain ⟨k', v'⟩ := p
    simp only [List.map_cons, List.mem_cons, not_or] at h
    simp only [lookupVar]
    rw [if_neg fun he => h.1 he.symm]
    exact ih h.2

theorem assoc_ext (t1 : Assign) : ∀ t2 : Assign,
    t1.map Prod.fst = t2.map Prod.fst → (t1.map Prod.fst).Nodup →
    (∀ x, lookupVar x t1 = lookupVar x t2) → t1 = t2 := by
  induction t1 with
  | nil =>
    intro t2 hk _ _
    have h2 : t2.map Prod.fst = [] := hk.symm
    rw [List.map_eq_nil_iff] at h2
    exact h2.symm
  | cons p rest ih =>
    intro t2 hk hnd hl
    cases t2 with
    | nil => simp at hk
    | cons q t2 =>
      obtain ⟨k, a⟩ := p
      obtain ⟨k2, b⟩ := q
      simp only [List.map_cons, List.cons.injEq] at hk
      obtain ⟨rfl, hk2⟩ := hk
      have hab : a = b := by
        have := hl k
        simpa [lookupVar] using this
      subst hab
      have hknotin : k ∉ rest.map Prod.fst := (List.nodup_cons.mp hnd).1
      have hknotin2 : k ∉ t2.map Prod.fst := hk2 ▸ hknotin
      refine congrArg _ (ih t2 hk2 (List.nodup_cons.mp hnd).2 fun x => ?_)
      by_cases hx : k = x
      · subst hx
        rw [lookupVar_eq_none_of_not_mem rest k hknotin,
          lookupVar_eq_none_of_not_mem t2 k hknotin2]
      · have := hl x
        simpa [lookupVar, if_neg hx] using this

/-! Theorems for the claims about the evaluator and the table builder. -/

/-- C1, counterexample: the input a and b or c does not parse to the
left-associated tree Or(And(a, b), c) the claim demands. -/
theorem C1_counterexample :
    parse_expression "a & b | c" ≠
      some (.Or (.And (.Term "a") (.Term "b")) (.Term "c")) := by decide

/-- C1, amended: the four binary operators share one flat precedence
level, but an unparenthesized chain nests to the right: a and b or c
parses to And(a, Or(b, c)) and a implies b implies c parses to
Imply(a, Imply(b, c)). -/
theorem C1_theorem :
    parse_expression "a & b | c" =
      some (.And (.Term "a") (.Or (.Term "b") (.Term "c"))) ∧
    parse_expression "a => b => c" =
      some (.Imply (.Term "a") (.Imply (.Term "b") (.Term "c"))) := by
  constructor <;> decide

/-- C2, counterexample: the input bang a and b does not parse to
And(Not(a), b) as the claim demands. -/
theorem C2_counterexample :
    parse_expression "!a & b" ≠
      some (.And (.Not (.Term "a")) (.Term "b")) := by decide

/-- C2, amended: negation captures the entire expression following the
bang, so bang a and b parses to Not(And(a, b)); negating a single atom
requires parenthesizing the negation itself. -/
theorem C2_theorem :
    parse_expression "!a & b" = some (.Not (.And (.Term "a") (.Term "b"))) ∧
    parse_expression "(!a) & b" =
      some (.And (.Not (.Term "a")) (.Term "b")) := by
  constructor <;> decide

/-- C3, counterexample: on the empty variable set make_table does not
return the single-row table containing the empty assignment. -/
theorem C3_counterexample :
    make_table [] ≠ some [([] : Assign)] := by decide

/-- C3, amended: on the empty variable set make_table fails: the program
unwraps the first element of an empty iterator and panics, modelled as
none. -/
theorem C3_theorem : make_table [] = none := rfl

/-- C4: on a nonempty duplicate-free variable sequence, make_table yields
exactly two to the n rows; every row binds exactly the given variables,
each once; and the rows are pairwise distinct, both as lists and as maps. -/
theorem C4_theorem (vars : List String) (hne : vars ≠ []) (hnd : vars.Nodup) :
    ∃ rows, make_table vars = some rows ∧
      rows.length = 2 ^ vars.length ∧
      (∀ r ∈ rows, r.map Prod.fst = vars) ∧
      rows.Nodup ∧
      (∀ r ∈ rows, ∀ s ∈ rows, r ≠ s →
        ∃ v ∈ vars, lookupVar v r ≠ lookupVar v s) := by
  obtain ⟨v, vs, rfl⟩ := List.exists_cons_of_ne_nil hne
  have hbase : TableInv [v] [[(v, false)], [(v, true)]] := by
    refine ⟨?_, by simp, rfl⟩
    intro t ht
    rcases List.mem_cons.mp ht with rfl | ht
    · rfl
    · rcases List.mem_cons.mp ht with rfl | ht
      · rfl
      · simp at ht
  have hinv : TableInv ([v] ++ vs)
      (vs.foldl table_step [[(v, false)], [(v, true)]]) :=
    foldl_table_inv vs [v] _ hbase (by simpa using hnd)
  rw [show [v] ++ vs = v :: vs from rfl] at hinv
  obtain ⟨hkeys, hnodup, hlen⟩ := hinv
  refine ⟨_, rfl, hlen, hkeys, hnodup, ?_⟩
  intro r hr s hs hneq
  by_contra hcon
  push_neg at hcon
  apply hneq
  apply assoc_ext
  · rw [hkeys r hr, hkeys s hs]
  · rw [hkeys r hr]; exact hnd
  · intro x
    by_cases hx : x ∈ v :: vs
    · exact hcon x hx
    · rw [lookupVar_eq_none_of_not_mem r x (by rw [hkeys r hr]; exact hx),
        lookupVar_eq_none_of_not_mem s x (by rw [hkeys s hs]; exact hx)]

/-- C4, witness: the property instantiated at the two-variable set. -/
theorem C4_witness :
    (["a", "b"] : List String) ≠ [] ∧ (["a", "b"] : List String).Nodup ∧
    ∃ rows, make_table ["a", "b"] = some rows ∧
      rows.length = 2 ^ (["a", "b"] : List String).length ∧
      (∀ r ∈ rows, r.map Prod.fst = ["a", "b"]) ∧
      rows.Nodup ∧
      (∀ r ∈ rows, ∀ s ∈ rows, r ≠ s →
        ∃ v ∈ (["a", "b"] : List String), lookupVar v r ≠ lookupVar v s) :=
  ⟨by decide, by decide, C4_theorem ["a", "b"] (by decide) (by decide)⟩

/-- C5: interpret fails exactly when some variable of the expression is
missing from the assignment, and a conjunction or disjunction fails as
soon as either side would fail, regardless of the other operand. -/
theorem C5_theorem :
    (∀ e a, interpret e a = none ↔ ∃ s ∈ get_vars_ e, lookupVar s a = none) ∧
    (∀ l r a, interpret (.And l r) a = none ↔
      (interpret l a = none ∨ interpret r a = none)) ∧
    (∀ l r a, interpret (.Or l r) a = none ↔
      (interpret l a = none ∨ interpret r a = none)) := by
  refine ⟨interpret_none_iff, ?_, ?_⟩ <;>
    · intro l r a
      rw [interpret_none_iff, interpret_none_iff l, interpret_none_iff r]
      constructor
      · rintro ⟨s, hmem, hn⟩
        rcases List.mem_append.mp (by simpa [get_vars_] using hmem) with h | h
        · exact Or.inl ⟨s, h, hn⟩
        · exact Or.inr ⟨s, h, hn⟩
      · rintro (⟨s, hmem, hn⟩ | ⟨s, hmem, hn⟩) <;>
          exact ⟨s, by simp [get_vars_, List.mem_append, hmem], hn⟩

/-- C6: parsing is total and all-or-nothing: the fixed fuel of the entry
point never runs out, a parse succeeds exactly when the whole input is
consumed as one expression, and an unmatched parenthesis on either side,
trailing garbage, an unrecognized character, the empty input and a
dangling operator all yield failure with no partial result. -/
theorem C6_theorem :
    (∀ s : String, parseExprF (exprFuel s.data) s.data ≠ .out) ∧
    (∀ (s : String) (e : Expr), parse_expression s = some e ↔
      parseExprF (exprFuel s.data) s.data = .ok (e, [])) ∧
    parse_expression "(a & b" = none ∧
    parse_expression "a & b)" = none ∧
    parse_expression "a b" = none ∧
    parse_expression "a $ b" = none ∧
    parse_expression "" = none ∧
    parse_expression "a &" = none := by
  refine ⟨?_, ?_, by decide, by decide, by decide, by decide, by decide,
    by decide⟩
  · intro s
    exact (parse_no_out (exprFuel s.data)).1 s.data (by unfold exprFuel; omega)
  · intro s e
    unfold parse_expression parseExprTop
    cases hp : parseExprF (exprFuel s.data) s.data with
    | ok p =>
      obtain ⟨e1, r⟩ := p
      cases r with
      | nil => simp
      | cons c r2 => simp
    | fail => simp
    | out => simp

/-- C8, counterexample: no printer makes every abstract syntax tree round
trip, because no parse result ever contains a Term node named true, so a
tree holding that node is never recovered from any string. -/
theorem C8_counterexample :
    ¬ ∃ pr : Expr → String, ∀ f : Expr, parse_expression (pr f) = some f := by
  rintro ⟨pr, hpr⟩
  have h := parse_expression_goodTerms _ _ (hpr (.Term "true"))
  exact absurd h (by decide)

/-- C8, amended: for every tree whose Term names are nonempty all-letter
identifiers other than true and false, the canonical fully parenthesized
printer round-trips through parse_expression. -/
theorem C8_theorem (f : Expr) (h : validNames f = true) :
    parse_expression (canonPrint f) = some f :=
  print_parse_roundtrip f h

/-- C8, witness: a concrete tree with valid names round-trips. -/
theorem C8_witness :
    validNames (.And (.Term "a") (.Not (.Term "b"))) = true ∧
    parse_expression (canonPrint (.And (.Term "a") (.Not (.Term "b")))) =
      some (.And (.Term "a") (.Not (.Term "b"))) :=
  ⟨by decide, C8_theorem (.And (.Term "a") (.Not (.Term "b"))) (by decide)⟩

/-- C9: no parser output contains a Term named true or false; the keyword
idents parse to the boolean constants, while case variants and every other
nonempty all-letter identifier parse to a Term carrying that exact name. -/
theorem C9_theorem :
    (∀ s e, parse_expression s = some e → goodTerms e = true) ∧
    parse_expression "true" = some .True ∧
    parse_expression "false" = some .False ∧
    parse_expression "True" = some (.Term "True") ∧
    parse_expression "TRUE" = some (.Term "TRUE") ∧
    (∀ name : String, name.data ≠ [] →
      (∀ c ∈ name.data, isLetter c = true) →
      name ≠ "true" → name ≠ "false" →
      parse_expression name = some (.Term name)) := by
  refine ⟨parse_expression_goodTerms, by decide, by decide, by decide,
    by decide, ?_⟩
  intro name h1 h2 h3 h4
  have hv : validNames (.Term name) = true := by
    rw [show validNames (.Term name) = (!name.data.isEmpty &&
      name.data.all isLetter && name != "true" && name != "false") from rfl]
    simp only [Bool.and_eq_true, bne_iff_ne, Bool.not_eq_true']
    refine ⟨⟨⟨?_, List.all_eq_true.mpr h2⟩, h3⟩, h4⟩
    cases hd : name.data with
    | nil => exact absurd hd h1
    | cons c cs => rfl
  exact print_parse_roundtrip (.Term name) hv

/-- C7: whenever the implication evaluates successfully, it agrees with
the desugared form or(not(p), q) under the same assignment. -/
theorem C7_theorem (p q : Expr) (a : Assign) (b : Bool)
    (h : interpret (.Imply p q) a = some b) :
    interpret (.Or (.Not p) q) a = some b := by
  rw [← interpret_imply_or]; exact h

/-- C7, witness: a concrete implication whose evaluation succeeds, with
the desugaring law applied to it. -/
theorem C7_witness :
    interpret (.Imply (.Term "a") (.Term "b")) [("a", true), ("b", false)] =
      some false ∧
    interpret (.Or (.Not (.Term "a")) (.Term "b")) [("a", true), ("b", false)] =
      some false :=
  ⟨by decide, C7_theorem _ _ _ _ (by decide)⟩

theorem paren_extend (g : Nat) (s : List Char) (e : Expr)
    (hge : exprFuel s ≤ g) (h : parseExprF (exprFuel s) s = .ok (e, [])) :
    parseExprF (g + 3) ('(' :: (s ++ [')'])) = .ok (e, []) := by
  have hsafe : safeU [')'] := Or.inr ⟨[], rfl⟩
  have hext0 := (parse_append [')'] hsafe (exprFuel s)).1 s e [] h (Or.inl rfl)
  rw [List.nil_append] at hext0
  have hg1 : 1 ≤ g := le_trans (by unfold exprFuel; omega) hge
  obtain ⟨m, rfl⟩ : ∃ m, g = m + 1 := ⟨g - 1, by omega⟩
  have hext : parseExprF (m + 1) (s ++ [')']) = .ok (e, [')']) := by
    rw [parseExprF_mono_le hge (s ++ [')']) (by rw [hext0]; simp), hext0]
  have hNo : parseNotF (m + 1) ('(' :: (s ++ [')'])) = PRes.fail := by
    rw [parseNotF_succ]
    simp only []
    rw [if_neg (by decide : ¬(('(' : Char) = '!'))]
  have hU : parseUnaryF (m + 2) ('(' :: (s ++ [')'])) = .ok (e, []) := by
    rw [parseUnaryF_succ]
    rw [skipWs_cons_of_not_ws '(' (s ++ [')']) rfl]
    simp only [parseTerm_not_letter '(' (s ++ [')']) rfl]
    simp only [hNo]
    rw [if_pos trivial]
    simp only [hext]
    rw [if_pos trivial]
    rfl
  have hB : parseBinaryF (m + 3) ('(' :: (s ++ [')'])) = .ok (e, []) := by
    rw [parseBinaryF_succ]
    simp only [hU]
    rw [restF_stop (m + 2) (skipWs []) (by omega) rfl]
    rfl
  have hE : parseExprF (m + 4) ('(' :: (s ++ [')'])) = .ok (e, []) := by
    rw [parseExprF_succ]
    rw [skipWs_cons_of_not_ws '(' (s ++ [')']) rfl]
    simp only [hB]
    rfl
  exact hE

/-- C10: parenthesization is transparent: whenever parse_expression
succeeds on a text, it also succeeds on the same text wrapped in one
extra pair of parentheses, and returns the same AST. -/
theorem C10_theorem (t : String) (e : Expr)
    (h : parse_expression t = some e) :
    parse_expression ("(" ++ t ++ ")") = some e := by
  unfold parse_expression parseExprTop at h ⊢
  have hp : parseExprF (exprFuel t.data) t.data = .ok (e, []) := by
    cases hp0 : parseExprF (exprFuel t.data) t.data with
    | out => rw [hp0] at h; exact Option.noConfusion h
    | fail => rw [hp0] at h; exact Option.noConfusion h
    | ok p =>
      obtain ⟨e1, r1⟩ := p
      cases r1 with
      | nil =>
        rw [hp0] at h
        simp only [Option.some.injEq] at h
        rw [h]
      | cons c cs => rw [hp0] at h; exact Option.noConfusion h
  have hD : ("(" ++ t ++ ")").data = '(' :: (t.data ++ [')']) := by
    rw [String.data_append, String.data_append]
    rfl
  rw [hD]
  obtain ⟨g, hg, hgeq⟩ : ∃ g, exprFuel t.data ≤ g ∧
      exprFuel ('(' :: (t.data ++ [')'])) = g + 3 := by
    refine ⟨8 * t.data.length + 21, by unfold exprFuel; omega, ?_⟩
    unfold exprFuel
    rw [List.length_cons, List.length_append]
    simp only [List.length_cons, List.length_nil]
    omega
  rw [hgeq, paren_extend g t.data e hg hp]

/-- C10, witness: a concrete formula, parsed plain and parenthesized. -/
theorem C10_witness :
    parse_expression "a" = some (.Term "a") ∧
    parse_expression "(a)" = some (.Term "a") :=
  ⟨by decide, C10_theorem "a" (.Term "a") (by decide)⟩

end LogicParser

